import Mathlib

/-!
fkre: Flesch-Kincaid reading ease

A shallow embedding of `src/main.c` of fkre (the character classifier, the
tokenizing state machine, the word and tag analyzer, the syllable estimator)
together with theorems about it.

Conventions of the embedding.

* A code point (`UTF32`) is a natural number; a `KString` is the list of its
  code points.  The `int` parameter of `fkre_classify` is an `Int`.
* The `int` counters of `FKREContext` are unbounded integers (`Int`).
* `exit (-1)` in the `default:` branch of the state machine is `none`.
* Index loops `for (i = 0; i < l; i++) ... kstring_get (s, i)` are recursion
  over the list of code points, left to right.
* The `static` variables of `fkre_count_syllables` are the constant `VOWELS` in
  the functions named as in `main.c`; the functions with the suffix `_st` pass
  them through the scan explicitly (`Statics`) and are proved to agree.
-/

namespace Fkre

/-! ## The string library (klib `kstring`) -/

/-- A code point, the `UTF32` of klib. -/
abbrev UTF32 := Nat

/-- Modelled from the spec: `KString` of klib (`kstring.c` is not among the
sources), the "abstract mutable text buffer type" of the spec, as the list of
its code points. -/
abbrev KString := List UTF32

/-- The code points of a C string literal (all literals of `main.c` are ASCII,
so UTF-8 bytes and code points coincide). -/
def utf8 (s : String) : KString := s.toList.map Char.toNat

/-- Modelled from the spec: `kstring_new_empty` of klib, the empty buffer. -/
def kstring_new_empty : KString := []

/-- Modelled from the spec: `kstring_length` of klib, the number of code
points ("length"). -/
def kstring_length (s : KString) : Nat := s.length

/-- Modelled from the spec: `kstring_get` of klib, "indexed code-point access".
The buffer is zero-terminated (`main.c` hands `kstring_cstr` to the `%S`
conversion), so the read at `index = length` is taken to give `0`. -/
def kstring_get (s : KString) (index : Nat) : UTF32 := s.getD index 0

/-- Modelled from the spec: `kstring_append_char` of klib ("append"). -/
def kstring_append_char (s : KString) (c : UTF32) : KString := s ++ [c]

/-- Modelled from the spec: `kstring_clear` of klib ("clear"). -/
def kstring_clear (_s : KString) : KString := []

/-- Modelled from the spec: `kstring_ends_with_utf8` of klib, the "suffix
test": the last code points of `s` are those of `suffix`. -/
def kstring_ends_with_utf8 (s suffix : KString) : Bool := suffix.isSuffixOf s

/-- Modelled from the spec: `kstring_strcmp_utf8` of klib, of which `main.c`
uses the "equality test" only: the result is `0` exactly when the two strings
have the same code points. -/
def kstring_strcmp_utf8 (s t : KString) : Int := if s = t then 0 else 1

/-! ## Types of the state machine -/

/-- The `State` enum of `main.c`. -/
inductive State where
  | STATE_START
  | STATE_TAG
  | STATE_WHITE
  | STATE_TEXT
  deriving DecidableEq, Repr

/-- The `Type` enum of `main.c` (the category of a character). -/
inductive CharType where
  | TYPE_UNKNOWN
  | TYPE_STARTTAG
  | TYPE_ENDTAG
  | TYPE_WHITE
  | TYPE_TEXT
  deriving DecidableEq, Repr

open State CharType

/-- The numeric value of a `State` enumerator. -/
def State.toNat : State → Nat
  | STATE_START => 0
  | STATE_TAG => 1
  | STATE_WHITE => 2
  | STATE_TEXT => 3

/-- The numeric value of a `Type` enumerator. -/
def CharType.toNat : CharType → Nat
  | TYPE_UNKNOWN => 0
  | TYPE_STARTTAG => 1
  | TYPE_ENDTAG => 2
  | TYPE_WHITE => 3
  | TYPE_TEXT => 4

/-- The `FKREContext` struct of `main.c`.  The `double score` is a rational. -/
structure FKREContext where
  html : Bool
  words : Int
  sentences : Int
  current_sentence_length : Int
  max_sentence_length : Int
  syllables : Int
  score : Rat
  words_in_this_subheading : Int
  subheadings : Int
  maximum_words_per_subheading : Int
  last_word : KString
  passive_sentences : Int
  deriving DecidableEq, Repr

/-- The context as `main` sets it up: `memset` to zero, then `context.html = html`
(the null `last_word` is replaced by an empty string on entry to `fkre_process`). -/
def FKREContext.zeroed (html : Bool) : FKREContext :=
  { html := html, words := 0, sentences := 0, current_sentence_length := 0,
    max_sentence_length := 0, syllables := 0, score := 0,
    words_in_this_subheading := 0, subheadings := 0,
    maximum_words_per_subheading := 0, last_word := [], passive_sentences := 0 }

/-! ## fkre_count_syllables -/

/-- The `VOWELS` table of `main.c`. -/
def VOWELS : List UTF32 :=
  ['a'.toNat, 'e'.toNat, 'i'.toNat, 'o'.toNat, 'u'.toNat, 'y'.toNat, 0xE1, 0xE9, 0xEF]

/-- The two "Convert to lower case" statements applied to the table entry `v`
(lines 103 and 104). -/
def lower_vowel (v : UTF32) : UTF32 :=
  let v := if v ≥ 65 ∧ v ≤ 90 then v + 32 else v
  let v := if v ≥ 192 ∧ v ≤ 222 then v + 32 else v
  v

/-- The inner loop over the vowel table (lines 99 to 118) for one character
`wc`: from `(n, last_vowel)` to `(n, last_vowel, got_vowel)`. -/
def vowel_loop (wc : UTF32) (n : Int) (last_vowel : Bool) : List UTF32 → Int × Bool × Bool
  | [] => (n, last_vowel, false)
  | v0 :: rest =>
    let v := lower_vowel v0
    if v = wc ∧ last_vowel = true then (n, true, true)
    else if v = wc ∧ last_vowel = false then (n + 1, true, true)
    else vowel_loop wc n last_vowel rest

/-- The outer loop over the characters of the word (lines 95 to 121):
from `(n, last_vowel)` to the final `n`. -/
def syllable_loop (n : Int) (last_vowel : Bool) : KString → Int
  | [] => n
  | wc :: rest =>
    let r := vowel_loop wc n last_vowel VOWELS
    let last_vowel := if r.2.2 = false then false else r.2.1
    syllable_loop r.1 last_vowel rest

/-- The function `fkre_count_syllables` of `main.c`. -/
def fkre_count_syllables (word : KString) : Int :=
  let n := syllable_loop 0 false word
  if kstring_ends_with_utf8 word (utf8 "es") then n - 1
  else if kstring_ends_with_utf8 word (utf8 "e") then n - 1
  else n

/-! ## fkre_classify -/

/-- The function `fkre_classify` of `main.c`. -/
def fkre_classify (html : Bool) (c : Int) : CharType :=
  let ret := TYPE_UNKNOWN
  let ret := if html then
      let ret := if c = 60 then TYPE_STARTTAG else ret
      let ret := if c = 62 then TYPE_ENDTAG else ret
      ret
    else ret
  let ret := if ret = TYPE_UNKNOWN then
      (if c ≥ 0x2000 ∧ c ≤ 0x200A then TYPE_WHITE else ret)
    else ret
  let ret := if ret = TYPE_UNKNOWN then
      (if c = 32 ∨ c = 9 ∨ c = 13 ∨ c = 10 ∨ c = 0x0B ∨ c = 0x85 ∨ c = 0xA0
          ∨ c = 0x2028 ∨ c = 0x2029 ∨ c = 0x202F then TYPE_WHITE else ret)
    else ret
  let ret := if ret = TYPE_UNKNOWN then TYPE_TEXT else ret
  ret

/-! ## The analyzer: fkre_got_subheading, fkre_do_tag, fkre_extract_letters, fkre_do_word -/

/-- The function `fkre_got_subheading` of `main.c`. -/
def fkre_got_subheading (context : FKREContext) : FKREContext :=
  let context :=
    if context.words_in_this_subheading > context.maximum_words_per_subheading then
      { context with maximum_words_per_subheading := context.words_in_this_subheading }
    else context
  { context with words_in_this_subheading := 0 }

/-- The function `fkre_do_tag` of `main.c`. -/
def fkre_do_tag (context : FKREContext) (tag : KString) : FKREContext :=
  if kstring_length tag ≥ 1 then
    if kstring_get tag 0 = 'h'.toNat ∨ kstring_get tag 0 = 'H'.toNat then
      let c1 := kstring_get tag 1
      if c1 ≥ '1'.toNat ∧ c1 ≤ '9'.toNat then
        fkre_got_subheading { context with subheadings := context.subheadings + 1 }
      else context
    else context
  else context

/-- The function `fkre_extract_letters` of `main.c`. -/
def fkre_extract_letters : KString → KString
  | [] => kstring_new_empty
  | c :: rest =>
    if (c ≥ 'a'.toNat ∧ c ≤ 'z'.toNat) ∨ (c ≥ 'A'.toNat ∧ c ≤ 'Z'.toNat) ∨ (c ≥ 192 ∧ c ≤ 255) then
      c :: fkre_extract_letters rest
    else fkre_extract_letters rest

/-- The function `fkre_do_word` of `main.c`. -/
def fkre_do_word (context : FKREContext) (word : KString) : FKREContext :=
  let end_sentence := false
  let end_sentence := if kstring_ends_with_utf8 word (utf8 ".") then true else end_sentence
  let end_sentence := if kstring_ends_with_utf8 word (utf8 "?") then true else end_sentence
  let context :=
    if end_sentence then
      let context :=
        if context.current_sentence_length > context.max_sentence_length then
          { context with max_sentence_length := context.current_sentence_length }
        else context
      { context with sentences := context.sentences + 1, current_sentence_length := 0 }
    else context
  let clean_word := fkre_extract_letters word
  if kstring_length clean_word > 0 then
    let syls := fkre_count_syllables clean_word
    let context :=
      { context with
        syllables := context.syllables + syls
        current_sentence_length := context.current_sentence_length + 1
        words := context.words + 1
        words_in_this_subheading := context.words_in_this_subheading + 1 }
    let context :=
      if syls > 1 then
        if kstring_ends_with_utf8 clean_word (utf8 "ed") then
          if kstring_strcmp_utf8 context.last_word (utf8 "is") = 0
              ∨ kstring_strcmp_utf8 context.last_word (utf8 "was") = 0
              ∨ kstring_strcmp_utf8 context.last_word (utf8 "being") = 0 then
            { context with passive_sentences := context.passive_sentences + 1 }
          else context
        else context
      else context
    { context with last_word := clean_word }
  else context

/-! ## fkre_process -/

/-- The variables of the loop of `fkre_process`: the context, the automaton
state and the two buffers. -/
structure Scan where
  context : FKREContext
  state : State
  tag : KString
  word : KString
  deriving DecidableEq, Repr

/-- The body of the `for` loop of `fkre_process` after the classification of
the character (lines 327 to 448): `type` is the category of the character `c`;
`none` is the `default:` branch (`exit (-1)`). -/
def fkre_dispatch (s : Scan) (type : CharType) (c : UTF32) : Option Scan :=
  if s.state = STATE_TAG ∧ type ≠ TYPE_ENDTAG then
    some { s with tag := kstring_append_char s.tag c }
  else
    let key := s.state.toNat * 1000 + type.toNat
    if key = STATE_START.toNat * 1000 + TYPE_STARTTAG.toNat then
      some { s with state := STATE_TAG }
    else if key = STATE_START.toNat * 1000 + TYPE_ENDTAG.toNat then
      some { s with state := STATE_START }
    else if key = STATE_START.toNat * 1000 + TYPE_WHITE.toNat then
      some { s with state := STATE_WHITE }
    else if key = STATE_START.toNat * 1000 + TYPE_TEXT.toNat then
      some { s with word := kstring_append_char s.word c, state := STATE_TEXT }
    else if key = STATE_TAG.toNat * 1000 + TYPE_ENDTAG.toNat then
      some { s with context := fkre_do_tag s.context s.tag, tag := kstring_clear s.tag,
                    state := STATE_START }
    else if key = STATE_WHITE.toNat * 1000 + TYPE_WHITE.toNat then
      some { s with state := STATE_WHITE }
    else if key = STATE_WHITE.toNat * 1000 + TYPE_STARTTAG.toNat then
      some { s with state := STATE_TAG }
    else if key = STATE_WHITE.toNat * 1000 + TYPE_ENDTAG.toNat then
      some { s with state := STATE_START }
    else if key = STATE_WHITE.toNat * 1000 + TYPE_TEXT.toNat then
      some { s with word := kstring_append_char s.word c, state := STATE_TEXT }
    else if key = STATE_TEXT.toNat * 1000 + TYPE_WHITE.toNat then
      some { s with context := fkre_do_word s.context s.word, word := kstring_clear s.word,
                    state := STATE_WHITE }
    else if key = STATE_TEXT.toNat * 1000 + TYPE_STARTTAG.toNat then
      some { s with context := fkre_do_word s.context s.word, word := kstring_clear s.word,
                    state := STATE_TAG }
    else if key = STATE_TEXT.toNat * 1000 + TYPE_ENDTAG.toNat then
      some { s with state := STATE_TEXT }
    else if key = STATE_TEXT.toNat * 1000 + TYPE_TEXT.toNat then
      some { s with word := kstring_append_char s.word c, state := STATE_TEXT }
    else none

/-- The body of the `for` loop of `fkre_process` (lines 325 to 448) for the
character `c`: classify it, then dispatch on state and category. -/
def fkre_step (s : Scan) (c : UTF32) : Option Scan :=
  fkre_dispatch s (fkre_classify s.context.html (c : Int)) c

/-- The `for` loop of `fkre_process` over the characters of the text. -/
def fkre_loop (s : Scan) : KString → Option Scan
  | [] => some s
  | c :: rest =>
    match fkre_step s c with
    | none => none
    | some s1 => fkre_loop s1 rest

/-- The variables of `fkre_process` on entry to the loop (lines 317 to 321). -/
def fkre_init (context : FKREContext) : Scan :=
  { context := { context with last_word := kstring_new_empty },
    state := STATE_START, tag := kstring_new_empty, word := kstring_new_empty }

/-- The function `fkre_process` of `main.c`; `none` is `exit (-1)`. -/
def fkre_process (context : FKREContext) (text : KString) : Option FKREContext :=
  match fkre_loop (fkre_init context) text with
  | none => none
  | some s =>
    if s.context.html then some (fkre_got_subheading s.context) else some s.context

/-! ## fkre_calculate_score and the rating of main -/

/-- The function `fkre_calculate_score` of `main.c`: the returned `BOOL` and the
context after the call.  The `double` arithmetic is exact rational arithmetic. -/
def fkre_calculate_score (context : FKREContext) : Bool × FKREContext :=
  let ret := false
  if context.sentences > 0 ∧ context.words > 0 then
    let twords : Rat := context.words
    let tsents : Rat := context.sentences
    let tsylls : Rat := context.syllables
    let context :=
      { context with score := 206.835 - 1.015 * (twords / tsents) - 84.6 * (tsylls / twords) }
    (true, context)
  else (ret, context)

/-- The rating cascade of `main` (lines 631 to 638): the text printed after
"FK rating: " for a score. -/
def fk_rating (score : Rat) : String :=
  if score > 90 then "very easy"
  else if score > 80 then "easy"
  else if score > 70 then "fairly easy"
  else if score > 60 then "plain English"
  else if score > 50 then "fairly difficult"
  else if score > 30 then "difficult"
  else if score > 10 then "very difficult"
  else "extremely difficult"

/-! ## The static storage of fkre_count_syllables made explicit

`fkre_count_syllables` keeps its vowel table in `static` variables (lines 90
and 91), which outlive a call: they are the one piece of storage through which
a scan could influence a later scan.  The definitions of this section pass that
storage through the scan explicitly, each function returning the storage it
leaves behind. -/

/-- The `static` variables of `fkre_count_syllables`: the array `vowels` and
its length `nvowels`. -/
structure Statics where
  vowels : List UTF32
  nvowels : Nat
  deriving DecidableEq, Repr

/-- The static storage at program start: `vowels` holds `VOWELS` and `nvowels`
is `sizeof (vowels) / sizeof (UTF32)`. -/
def Statics.startup : Statics := { vowels := VOWELS, nvowels := VOWELS.length }

/-- The inner loop over the vowel table (lines 99 to 118) on the static
storage: the entries `vowels[j]` for `j < nvowels` are read into the local `v`;
nothing is stored. -/
def vowel_loop_st (st : Statics) (wc : UTF32) (n : Int) (last_vowel : Bool) :
    (Int × Bool × Bool) × Statics :=
  (vowel_loop wc n last_vowel ((List.range st.nvowels).map (fun j => st.vowels.getD j 0)), st)

/-- The outer loop over the characters of the word (lines 95 to 121) on the
static storage. -/
def syllable_loop_st (st : Statics) (n : Int) (last_vowel : Bool) : KString → Int × Statics
  | [] => (n, st)
  | wc :: rest =>
    let r := vowel_loop_st st wc n last_vowel
    let last_vowel := if r.1.2.2 = false then false else r.1.2.1
    syllable_loop_st r.2 r.1.1 last_vowel rest

/-- The function `fkre_count_syllables` of `main.c` on the static storage: the
estimate and the storage after the call. -/
def fkre_count_syllables_st (st : Statics) (word : KString) : Int × Statics :=
  let r := syllable_loop_st st 0 false word
  if kstring_ends_with_utf8 word (utf8 "es") then (r.1 - 1, r.2)
  else if kstring_ends_with_utf8 word (utf8 "e") then (r.1 - 1, r.2)
  else (r.1, r.2)

/-- The function `fkre_do_word` of `main.c` on the static storage. -/
def fkre_do_word_st (st : Statics) (context : FKREContext) (word : KString) :
    FKREContext × Statics :=
  let end_sentence := false
  let end_sentence := if kstring_ends_with_utf8 word (utf8 ".") then true else end_sentence
  let end_sentence := if kstring_ends_with_utf8 word (utf8 "?") then true else end_sentence
  let context :=
    if end_sentence then
      let context :=
        if context.current_sentence_length > context.max_sentence_length then
          { context with max_sentence_length := context.current_sentence_length }
        else context
      { context with sentences := context.sentences + 1, current_sentence_length := 0 }
    else context
  let clean_word := fkre_extract_letters word
  if kstring_length clean_word > 0 then
    let r := fkre_count_syllables_st st clean_word
    let syls := r.1
    let context :=
      { context with
        syllables := context.syllables + syls
        current_sentence_length := context.current_sentence_length + 1
        words := context.words + 1
        words_in_this_subheading := context.words_in_this_subheading + 1 }
    let context :=
      if syls > 1 then
        if kstring_ends_with_utf8 clean_word (utf8 "ed") then
          if kstring_strcmp_utf8 context.last_word (utf8 "is") = 0
              ∨ kstring_strcmp_utf8 context.last_word (utf8 "was") = 0
              ∨ kstring_strcmp_utf8 context.last_word (utf8 "being") = 0 then
            { context with passive_sentences := context.passive_sentences + 1 }
          else context
        else context
      else context
    ({ context with last_word := clean_word }, r.2)
  else (context, st)

/-- The body of the `for` loop of `fkre_process` after the classification of
the character (lines 327 to 448) on the static storage; `none` is the
`default:` branch (`exit (-1)`). -/
def fkre_dispatch_st (st : Statics) (s : Scan) (type : CharType) (c : UTF32) :
    Option (Scan × Statics) :=
  if s.state = STATE_TAG ∧ type ≠ TYPE_ENDTAG then
    some ({ s with tag := kstring_append_char s.tag c }, st)
  else
    let key := s.state.toNat * 1000 + type.toNat
    if key = STATE_START.toNat * 1000 + TYPE_STARTTAG.toNat then
      some ({ s with state := STATE_TAG }, st)
    else if key = STATE_START.toNat * 1000 + TYPE_ENDTAG.toNat then
      some ({ s with state := STATE_START }, st)
    else if key = STATE_START.toNat * 1000 + TYPE_WHITE.toNat then
      some ({ s with state := STATE_WHITE }, st)
    else if key = STATE_START.toNat * 1000 + TYPE_TEXT.toNat then
      some ({ s with word := kstring_append_char s.word c, state := STATE_TEXT }, st)
    else if key = STATE_TAG.toNat * 1000 + TYPE_ENDTAG.toNat then
      some ({ s with context := fkre_do_tag s.context s.tag, tag := kstring_clear s.tag,
                     state := STATE_START }, st)
    else if key = STATE_WHITE.toNat * 1000 + TYPE_WHITE.toNat then
      some ({ s with state := STATE_WHITE }, st)
    else if key = STATE_WHITE.toNat * 1000 + TYPE_STARTTAG.toNat then
      some ({ s with state := STATE_TAG }, st)
    else if key = STATE_WHITE.toNat * 1000 + TYPE_ENDTAG.toNat then
      some ({ s with state := STATE_START }, st)
    else if key = STATE_WHITE.toNat * 1000 + TYPE_TEXT.toNat then
      some ({ s with word := kstring_append_char s.word c, state := STATE_TEXT }, st)
    else if key = STATE_TEXT.toNat * 1000 + TYPE_WHITE.toNat then
      let r := fkre_do_word_st st s.context s.word
      some ({ s with context := r.1, word := kstring_clear s.word, state := STATE_WHITE }, r.2)
    else if key = STATE_TEXT.toNat * 1000 + TYPE_STARTTAG.toNat then
      let r := fkre_do_word_st st s.context s.word
      some ({ s with context := r.1, word := kstring_clear s.word, state := STATE_TAG }, r.2)
    else if key = STATE_TEXT.toNat * 1000 + TYPE_ENDTAG.toNat then
      some ({ s with state := STATE_TEXT }, st)
    else if key = STATE_TEXT.toNat * 1000 + TYPE_TEXT.toNat then
      some ({ s with word := kstring_append_char s.word c, state := STATE_TEXT }, st)
    else none

/-- The `for` loop of `fkre_process` on the static storage. -/
def fkre_loop_st (st : Statics) (s : Scan) : KString → Option (Scan × Statics)
  | [] => some (s, st)
  | c :: rest =>
    match fkre_dispatch_st st s (fkre_classify s.context.html (c : Int)) c with
    | none => none
    | some r => fkre_loop_st r.2 r.1 rest

/-- The function `fkre_process` of `main.c` on the static storage: the context
after the scan and the static storage that the scan leaves behind; `none` is
`exit (-1)`. -/
def fkre_process_st (st : Statics) (context : FKREContext) (text : KString) :
    Option (FKREContext × Statics) :=
  match fkre_loop_st st (fkre_init context) text with
  | none => none
  | some r =>
    if r.1.context.html then some (fkre_got_subheading r.1.context, r.2)
    else some (r.1.context, r.2)

/-! ## Reference definitions, following the words of the specification -/

/-- The token category of the specification (section 3): `StartTag`, `EndTag`,
`Whitespace`, `Text`. -/
inductive Category where
  | StartTag
  | EndTag
  | Whitespace
  | Text
  deriving DecidableEq, Repr

/-- The enumerator of `Type` that stands for a category of the specification. -/
def Category.toType : Category → CharType
  | .StartTag => TYPE_STARTTAG
  | .EndTag => TYPE_ENDTAG
  | .Whitespace => TYPE_WHITE
  | .Text => TYPE_TEXT

/-- The classifier as specified (section 4.1): tag delimiters first in HTML
mode, then the block U+2000 to U+200A, then the ten listed space characters,
else text. -/
def classify_spec (codepoint : Int) (html_mode : Bool) : Category :=
  if html_mode = true ∧ codepoint = 0x3C then .StartTag
  else if html_mode = true ∧ codepoint = 0x3E then .EndTag
  else if 0x2000 ≤ codepoint ∧ codepoint ≤ 0x200A then .Whitespace
  else if codepoint ∈ ([0x20, 0x09, 0x0D, 0x0A, 0x0B, 0x85, 0xA0, 0x2028, 0x2029, 0x202F] : List Int)
    then .Whitespace
  else .Text

/-- The transition table as specified (section 4.2), with its pre-rule for the
state `InTag`: the state, buffers and statistics after one character `c` of
category `cat`. -/
def transition_spec (s : Scan) (cat : Category) (c : UTF32) : Scan :=
  match s.state, cat with
  | STATE_START, .StartTag => { s with state := STATE_TAG }
  | STATE_START, .EndTag => { s with state := STATE_START }
  | STATE_START, .Whitespace => { s with state := STATE_WHITE }
  | STATE_START, .Text => { s with state := STATE_TEXT, word := s.word ++ [c] }
  | STATE_TAG, .EndTag =>
    { s with state := STATE_START, context := fkre_do_tag s.context s.tag, tag := [] }
  | STATE_TAG, _ => { s with state := STATE_TAG, tag := s.tag ++ [c] }
  | STATE_WHITE, .StartTag => { s with state := STATE_TAG }
  | STATE_WHITE, .EndTag => { s with state := STATE_START }
  | STATE_WHITE, .Whitespace => { s with state := STATE_WHITE }
  | STATE_WHITE, .Text => { s with state := STATE_TEXT, word := s.word ++ [c] }
  | STATE_TEXT, .StartTag =>
    { s with state := STATE_TAG, context := fkre_do_word s.context s.word, word := [] }
  | STATE_TEXT, .Whitespace =>
    { s with state := STATE_WHITE, context := fkre_do_word s.context s.word, word := [] }
  | STATE_TEXT, .EndTag => { s with state := STATE_TEXT }
  | STATE_TEXT, .Text => { s with state := STATE_TEXT, word := s.word ++ [c] }

/-- The vowel set of the specification (section 4.4): a, e, i, o, u, y, á, é, ï. -/
def vowel_set : List UTF32 := [0x61, 0x65, 0x69, 0x6F, 0x75, 0x79, 0xE1, 0xE9, 0xEF]

/-- Membership of a code point in the vowel set of the specification. -/
def is_vowel (c : UTF32) : Bool := decide (c ∈ vowel_set)

/-- The number of vowel-group starts of a word: the positions `i` where `word[i]`
is a vowel and either `i = 0` or `word[i-1]` is not a vowel. -/
def vowel_group_starts (word : KString) : Nat :=
  (List.range word.length).countP
    (fun i => is_vowel (word.getD i 0) && (i == 0 || !is_vowel (word.getD (i - 1) 0)))

/-- The syllable estimate as specified (section 4.4): the number of vowel-group
starts, minus 1 if the word ends with "es", otherwise minus 1 if it ends with
"e", otherwise minus 0. -/
def count_syllables_spec (word : KString) : Int :=
  (vowel_group_starts word : Int)
    - (if utf8 "es" <:+ word then 1 else if utf8 "e" <:+ word then 1 else 0)

/-- The vowel-group starts of a word counted left to right, `prev` telling
whether the character before the word is a vowel (an auxiliary of the proofs). -/
def group_starts_from (prev : Bool) : KString → Nat
  | [] => 0
  | c :: rest =>
    (if is_vowel c && !prev then 1 else 0) + group_starts_from (is_vowel c) rest

/-- A completed unit handed to the analyzer by the state machine: a word
(for `fkre_do_word`) or a tag (for `fkre_do_tag`). -/
inductive Dispatched where
  | word (w : KString)
  | tag (t : KString)
  deriving DecidableEq, Repr

/-- The analyzer call made for a completed unit. -/
def analyze (context : FKREContext) : Dispatched → FKREContext
  | .word w => fkre_do_word context w
  | .tag t => fkre_do_tag context t

/-- The unit that the loop body hands to the analyzer for one character, if
any: the word buffer in the cases `STATE_TEXT` with `TYPE_WHITE` or
`TYPE_STARTTAG`, the tag buffer in the case `STATE_TAG` with `TYPE_ENDTAG`. -/
def dispatched_at (s : Scan) (c : UTF32) : List Dispatched :=
  let type := fkre_classify s.context.html (c : Int)
  if s.state = STATE_TEXT ∧ (type = TYPE_WHITE ∨ type = TYPE_STARTTAG) then [.word s.word]
  else if s.state = STATE_TAG ∧ type = TYPE_ENDTAG then [.tag s.tag]
  else []

/-- The units that the loop of `fkre_process` hands to the analyzer, in order. -/
def dispatched (s : Scan) : KString → List Dispatched
  | [] => []
  | c :: rest =>
    match fkre_step s c with
    | none => []
    | some s1 => dispatched_at s c ++ dispatched s1 rest

/-- The words among the dispatched units, in order. -/
def words_of : List Dispatched → List KString
  | [] => []
  | .word w :: rest => w :: words_of rest
  | .tag _ :: rest => words_of rest

/-- The most recent word of a list whose clean (letters-only) form is not
empty, as its clean form; `init` when there is none. -/
def most_recent_clean (init : KString) (ws : List KString) : KString :=
  (((ws.map fkre_extract_letters).filter (fun w => !w.isEmpty)).getLast?).getD init

/-- A code point that `fkre_extract_letters` keeps: an ASCII letter or a code
point in 192..255. -/
def is_letter (c : UTF32) : Prop :=
  (97 ≤ c ∧ c ≤ 122) ∨ (65 ≤ c ∧ c ≤ 90) ∨ (192 ≤ c ∧ c ≤ 255)

/-- Being a letter is decidable. -/
instance is_letter_decidable (c : UTF32) : Decidable (is_letter c) := by
  unfold is_letter
  infer_instance

/-- The indices that `fkre_do_tag` passes to `kstring_get`, in order (lines 206
to 211): index 0 once or twice under the guard `kstring_length (tag) >= 1` (the
second comparison is evaluated only if the first fails), then index 1 if the
first character is `h` or `H`. -/
def fkre_do_tag_reads (tag : KString) : List Nat :=
  if kstring_length tag ≥ 1 then
    (if kstring_get tag 0 = 'h'.toNat then [0] else [0, 0])
      ++ (if kstring_get tag 0 = 'h'.toNat ∨ kstring_get tag 0 = 'H'.toNat then [1] else [])
  else []

/-- A whitespace code point of plain mode, in the words of the specification
(section 4.1). -/
def is_whitespace (c : UTF32) : Bool :=
  decide (classify_spec (c : Int) false = Category.Whitespace)

/-- The maximal runs of non-whitespace code points of a text that are
immediately followed by a whitespace code point, in order; `run` is the run
that is open at the start of the text (empty when none is).  A final run that
no whitespace follows is not listed. -/
def whitespace_runs (run : KString) : KString → List KString
  | [] => []
  | c :: rest =>
    if is_whitespace c then
      (if run = [] then whitespace_runs [] rest else run :: whitespace_runs [] rest)
    else whitespace_runs (run ++ [c]) rest

/-- The document made of the given words, each followed by one space. -/
def words_document : List KString → KString
  | [] => []
  | w :: rest => w ++ [32] ++ words_document rest

/-- The sentence-length accounting of a context: the counts are not negative,
the words of the completed sentences (`words - current_sentence_length`) are at
most `sentences * max_sentence_length` and at least `max_sentence_length`. -/
def sentence_accounting (context : FKREContext) : Prop :=
  0 ≤ context.sentences ∧ 0 ≤ context.current_sentence_length
  ∧ 0 ≤ context.max_sentence_length
  ∧ context.words - context.current_sentence_length
      ≤ context.sentences * context.max_sentence_length
  ∧ context.max_sentence_length ≤ context.words - context.current_sentence_length

/-- The subheading accounting of a context during a scan: the counts are not
negative and the words of the closed subheadings
(`words - words_in_this_subheading`) are at most
`subheadings * maximum_words_per_subheading`. -/
def subheading_accounting (context : FKREContext) : Prop :=
  0 ≤ context.subheadings ∧ 0 ≤ context.words_in_this_subheading
  ∧ 0 ≤ context.maximum_words_per_subheading
  ∧ context.words - context.words_in_this_subheading
      ≤ context.subheadings * context.maximum_words_per_subheading

/-! ## Theorems -/

/-- C1 (the code drops the pending word): in plain mode the scan of the
one-character document "a" ends in the state `STATE_TEXT` with "a" pending in the
word buffer, and `fkre_process` returns with `words = 0`, whereas the same
document with one space appended gives `words = 1`. -/
theorem fkre_process_drops_pending_word :
    (fkre_loop (fkre_init (FKREContext.zeroed false)) (utf8 "a")).map
        (fun s => (s.state, s.word)) = some (STATE_TEXT, utf8 "a")
    ∧ (fkre_process (FKREContext.zeroed false) (utf8 "a")).map (fun c => c.words) = some 0
    ∧ (fkre_process (FKREContext.zeroed false) (utf8 "a" ++ utf8 " ")).map
        (fun c => c.words) = some 1 := by
  decide

/-- C2 (what the code computes): scanning "Cats sit. Dogs run." in plain mode
from zeroed statistics gives `sentences = 1`, `words = 3`,
`max_sentence_length = 1` and `syllables = 3`: the last word "run." is never
dispatched.  With one space appended the values are 2, 4, 2 and 4. -/
theorem fkre_process_cats_sit :
    (fkre_process (FKREContext.zeroed false) (utf8 "Cats sit. Dogs run.")).map
        (fun c => (c.sentences, c.words, c.max_sentence_length, c.syllables))
      = some (1, 3, 1, 3)
    ∧ (fkre_process (FKREContext.zeroed false) (utf8 "Cats sit. Dogs run. ")).map
        (fun c => (c.sentences, c.words, c.max_sentence_length, c.syllables))
      = some (2, 4, 2, 4) := by
  decide

/-- C3 (what the code computes): scanning "It was finished." in plain mode
from zeroed statistics gives `passive_sentences = 0`: the word "finished." is
never dispatched.  With one space appended the value is 1. -/
theorem fkre_process_it_was_finished :
    (fkre_process (FKREContext.zeroed false) (utf8 "It was finished.")).map
        (fun c => c.passive_sentences) = some 0
    ∧ (fkre_process (FKREContext.zeroed false) (utf8 "It was finished. ")).map
        (fun c => c.passive_sentences) = some 1 := by
  decide

/-- C4: scanning "<h1>Title</h1>Some words here.<h2>Next</h2>More words." in
HTML mode from zeroed statistics gives `subheadings = 2` and, after the implicit
boundary at the end of the document, `words_in_this_subheading = 0`. -/
theorem fkre_process_headings :
    (fkre_process (FKREContext.zeroed true)
        (utf8 "<h1>Title</h1>Some words here.<h2>Next</h2>More words.")).map
        (fun c => (c.subheadings, c.words_in_this_subheading)) = some (2, 0) := by
  decide

/-- C5 (counterexample): the syllable estimate of "baked" is not 1. -/
theorem fkre_count_syllables_baked_ne_one :
    fkre_count_syllables (utf8 "baked") ≠ 1 := by
  decide

/-- C5 (amended): the syllable estimate of "baked" is 2: two vowel groups and no
suffix correction, the word ending in "d". -/
theorem fkre_count_syllables_baked :
    fkre_count_syllables (utf8 "baked") = 2
    ∧ kstring_ends_with_utf8 (utf8 "baked") (utf8 "es") = false
    ∧ kstring_ends_with_utf8 (utf8 "baked") (utf8 "e") = false := by
  decide

/-- C6 (counterexample): with `last_word` equal to "is", the analyzer on the raw
word "baked." changes `passive_sentences`. -/
theorem fkre_do_word_baked_changes_passive :
    (fkre_do_word { FKREContext.zeroed false with last_word := utf8 "is" }
        (utf8 "baked.")).passive_sentences
      ≠ ({ FKREContext.zeroed false with last_word := utf8 "is" } : FKREContext).passive_sentences := by
  decide

/-- C6 (amended): whenever `last_word` is "is", the analyzer on the raw word
"baked." fires the passive heuristic: `passive_sentences` grows by exactly 1
(the clean word "baked" has the estimate 2 and ends with "ed"). -/
theorem fkre_do_word_baked_passive (context : FKREContext)
    (h : context.last_word = utf8 "is") :
    (fkre_do_word context (utf8 "baked.")).passive_sentences
      = context.passive_sentences + 1 := by
  have h1 : kstring_ends_with_utf8 (utf8 "baked.") (utf8 ".") = true := by decide
  have h2 : fkre_extract_letters (utf8 "baked.") = utf8 "baked" := by decide
  have h3 : kstring_length (utf8 "baked") > 0 := by decide
  have h4 : fkre_count_syllables (utf8 "baked") = 2 := by decide
  have h5 : kstring_ends_with_utf8 (utf8 "baked") (utf8 "ed") = true := by decide
  have h6 : kstring_strcmp_utf8 (utf8 "is") (utf8 "is") = 0 := by decide
  by_cases hm : context.current_sentence_length > context.max_sentence_length <;>
    simp [fkre_do_word, h, h1, h2, h3, h4, h5, h6, hm]

/-- C6 (witness): the amended statement at the zeroed context with `last_word`
set to "is". -/
theorem fkre_do_word_baked_passive_witness :
    (fkre_do_word { FKREContext.zeroed false with last_word := utf8 "is" }
        (utf8 "baked.")).passive_sentences
      = ({ FKREContext.zeroed false with last_word := utf8 "is" } : FKREContext).passive_sentences + 1 :=
  fkre_do_word_baked_passive { FKREContext.zeroed false with last_word := utf8 "is" } rfl

/-- C7 (the code compares case-sensitively): the estimate of "A" is 0 and the
estimate of "a" is 1, the lower-casing being applied to the entry of the vowel
table (which it leaves as it is) and not to the character of the word. -/
theorem fkre_count_syllables_case_sensitive :
    fkre_count_syllables (utf8 "A") = 0 ∧ fkre_count_syllables (utf8 "a") = 1
    ∧ VOWELS.map lower_vowel = VOWELS := by
  decide

/-- The classifier of the code and the classifier of the specification agree
on every code point, in either mode. -/
theorem fkre_classify_toType (html : Bool) (c : Int) :
    fkre_classify html c = (classify_spec c html).toType := by
  by_cases h1 : c = 60
  · subst h1; cases html <;> decide
  by_cases h2 : c = 62
  · subst h2; cases html <;> decide
  by_cases h3 : c ≥ 0x2000 ∧ c ≤ 0x200A
  · cases html <;> simp [fkre_classify, classify_spec, Category.toType, h1, h2, h3]
  by_cases h4 : c = 32 ∨ c = 9 ∨ c = 13 ∨ c = 10 ∨ c = 0x0B ∨ c = 0x85 ∨ c = 0xA0
      ∨ c = 0x2028 ∨ c = 0x2029 ∨ c = 0x202F
  · cases html <;> simp [fkre_classify, classify_spec, Category.toType, h1, h2, h3, h4]
  · cases html <;> simp [fkre_classify, classify_spec, Category.toType, h1, h2, h3, h4]

/-- In plain mode the classifier of the specification gives `Whitespace` or `Text`. -/
theorem classify_spec_plain (c : Int) :
    classify_spec c false = Category.Whitespace ∨ classify_spec c false = Category.Text := by
  unfold classify_spec
  split_ifs <;> simp_all

/-- C9: `fkre_classify` is total and equals the classifier of the
specification for every code point and mode; it never returns `TYPE_UNKNOWN`, and
in plain mode it returns neither `TYPE_STARTTAG` nor `TYPE_ENDTAG`. -/
theorem fkre_classify_eq_spec (html : Bool) (c : Int) :
    fkre_classify html c = (classify_spec c html).toType
    ∧ fkre_classify html c ≠ TYPE_UNKNOWN
    ∧ fkre_classify false c ≠ TYPE_STARTTAG
    ∧ fkre_classify false c ≠ TYPE_ENDTAG := by
  refine ⟨fkre_classify_toType html c, ?_, ?_, ?_⟩
  · rw [fkre_classify_toType]
    cases classify_spec c html <;> simp [Category.toType]
  · rw [fkre_classify_toType]
    rcases classify_spec_plain c with h | h <;> simp [h, Category.toType]
  · rw [fkre_classify_toType]
    rcases classify_spec_plain c with h | h <;> simp [h, Category.toType]

/-- The loop body after classification, for every state and category: it
returns, and the result is that of the transition table of the specification. -/
theorem fkre_dispatch_toType (s : Scan) (cat : Category) (c : UTF32) :
    fkre_dispatch s cat.toType c = some (transition_spec s cat c) := by
  obtain ⟨ctx, st, tag, word⟩ := s
  cases st <;> cases cat <;>
    simp [fkre_dispatch, transition_spec, Category.toType, State.toNat, CharType.toNat,
      kstring_append_char, kstring_clear]

/-- C10: for every state and every category the per-character step of
`fkre_process` returns (it never takes the `default:` branch) and equals the
transition table of the specification with its pre-rule for `InTag`; hence the
step on a character `c` is the table entry for the category of `c`. -/
theorem fkre_step_eq_table (s : Scan) (c : UTF32) :
    (∀ cat : Category, fkre_dispatch s cat.toType c = some (transition_spec s cat c))
    ∧ fkre_step s c = some (transition_spec s (classify_spec (c : Int) s.context.html) c) := by
  refine ⟨fun cat => fkre_dispatch_toType s cat c, ?_⟩
  unfold fkre_step
  rw [fkre_classify_toType, fkre_dispatch_toType]

/-- The inner loop over a vowel table finds a match exactly when the character
is a lower-cased entry of the table: it then counts a new group unless the
previous character was a vowel. -/
theorem vowel_loop_eq (wc : UTF32) (n : Int) (last_vowel : Bool) (table : List UTF32) :
    vowel_loop wc n last_vowel table
      = if wc ∈ table.map lower_vowel then
          (if last_vowel = true then (n, true, true) else (n + 1, true, true))
        else (n, last_vowel, false) := by
  induction table with
  | nil => simp [vowel_loop]
  | cons v0 rest ih =>
    by_cases hv : lower_vowel v0 = wc
    · cases last_vowel <;> simp [vowel_loop, hv]
    · have hv2 : ¬ wc = lower_vowel v0 := fun h => hv h.symm
      simp [vowel_loop, hv, hv2, ih]

/-- The lower-cased vowel table of the code is the vowel set of the specification. -/
theorem VOWELS_lowered : VOWELS.map lower_vowel = vowel_set := by
  decide

/-- The inner loop over `VOWELS`, in terms of the vowel set of the specification. -/
theorem vowel_loop_VOWELS (wc : UTF32) (n : Int) (last_vowel : Bool) :
    vowel_loop wc n last_vowel VOWELS
      = if is_vowel wc = true then
          (if last_vowel = true then (n, true, true) else (n + 1, true, true))
        else (n, last_vowel, false) := by
  rw [vowel_loop_eq, VOWELS_lowered]
  simp [is_vowel]

/-- The outer loop adds to `n` the number of vowel-group starts, counted from a
previous character that is a vowel or not according to `last_vowel`. -/
theorem syllable_loop_eq (word : KString) (n : Int) (last_vowel : Bool) :
    syllable_loop n last_vowel word = n + (group_starts_from last_vowel word : Int) := by
  induction word generalizing n last_vowel with
  | nil => simp [syllable_loop, group_starts_from]
  | cons wc rest ih =>
    simp only [syllable_loop, group_starts_from, vowel_loop_VOWELS]
    by_cases hw : is_vowel wc = true
    · cases last_vowel <;> simp [hw, ih]
      omega
    · cases last_vowel <;> simp [hw, ih]

/-- The count by positions of a word is the count from left to right; for the
first position the previous character is described by `prev`. -/
theorem countP_positions_eq (word : KString) (prev : Bool) :
    (List.range word.length).countP
        (fun i => is_vowel (word.getD i 0)
          && (if i = 0 then !prev else !is_vowel (word.getD (i - 1) 0)))
      = group_starts_from prev word := by
  induction word generalizing prev with
  | nil => simp [group_starts_from]
  | cons c rest ih =>
    rw [List.length_cons, List.range_succ_eq_map, List.countP_cons, List.countP_map,
      group_starts_from, ← ih (is_vowel c)]
    have hfun : List.countP ((fun i => is_vowel ((c :: rest).getD i 0)
          && (if i = 0 then !prev else !is_vowel ((c :: rest).getD (i - 1) 0))) ∘ Nat.succ)
          (List.range rest.length)
        = List.countP (fun i => is_vowel (rest.getD i 0)
          && (if i = 0 then !is_vowel c else !is_vowel (rest.getD (i - 1) 0)))
          (List.range rest.length) := by
      apply List.countP_congr
      intro i _
      cases i with
      | zero => simp
      | succ j => simp
    rw [hfun]
    simp
    omega

/-- The number of vowel-group starts, counted by positions or from left to right. -/
theorem vowel_group_starts_eq (word : KString) :
    vowel_group_starts word = group_starts_from false word := by
  rw [← countP_positions_eq word false]
  unfold vowel_group_starts
  apply List.countP_congr
  intro i _
  by_cases hi : i = 0 <;> simp [hi]

/-- C8: for every word (in particular every word of lower-case letters),
`fkre_count_syllables` is the number of vowel-group starts, minus 1 if the word
ends with "es", otherwise minus 1 if it ends with "e", otherwise minus 0. -/
theorem fkre_count_syllables_eq_spec (word : KString) :
    fkre_count_syllables word = count_syllables_spec word := by
  unfold fkre_count_syllables count_syllables_spec kstring_ends_with_utf8
  simp only [syllable_loop_eq, vowel_group_starts_eq, List.isSuffixOf_iff_suffix]
  split_ifs <;> simp

/-- The loop body returns for every state and character: the `default:` branch
is not taken. -/
theorem fkre_step_eq_transition (s : Scan) (c : UTF32) :
    fkre_step s c = some (transition_spec s (classify_spec (c : Int) s.context.html) c) := by
  unfold fkre_step
  rw [fkre_classify_toType, fkre_dispatch_toType]

/-- The loop returns for every starting point and every text. -/
theorem fkre_loop_isSome (s : Scan) (text : KString) : ∃ s1, fkre_loop s text = some s1 := by
  induction text generalizing s with
  | nil => exact ⟨s, rfl⟩
  | cons c rest ih =>
    simp only [fkre_loop, fkre_step_eq_transition]
    exact ih _

/-- C11: for every context (either mode) and every document, `fkre_process`
returns: neither the loop nor the function as a whole reaches the `default:`
branch (`exit (-1)`), and every single step returns as well. -/
theorem fkre_process_no_internal_error (context : FKREContext) (text : KString) :
    (∃ r, fkre_process context text = some r)
    ∧ (∀ (s : Scan) (c : UTF32), fkre_step s c ≠ none)
    ∧ (∀ (s : Scan) (t : KString), fkre_loop s t ≠ none) := by
  refine ⟨?_, ?_, ?_⟩
  · obtain ⟨s1, h1⟩ := fkre_loop_isSome (fkre_init context) text
    unfold fkre_process
    rw [h1]
    by_cases hh : s1.context.html = true
    · exact ⟨fkre_got_subheading s1.context, by simp [hh]⟩
    · exact ⟨s1.context, by simp [hh]⟩
  · intro s c
    rw [fkre_step_eq_transition]
    simp
  · intro s t
    obtain ⟨s1, h1⟩ := fkre_loop_isSome s t
    rw [h1]
    simp

/-- The equality test on the result of `kstring_strcmp_utf8`. -/
theorem kstring_strcmp_utf8_eq_zero (s t : KString) :
    kstring_strcmp_utf8 s t = 0 ↔ s = t := by
  unfold kstring_strcmp_utf8
  by_cases h : s = t <;> simp [h]

/-- The suffix test with a one-character suffix is a test on the last character. -/
theorem kstring_ends_with_singleton (word : KString) (a : UTF32) :
    kstring_ends_with_utf8 word [a] = true ↔ word.getLast? = some a := by
  unfold kstring_ends_with_utf8
  rw [List.isSuffixOf_iff_suffix, List.getLast?_eq_some_iff]
  constructor
  · rintro ⟨t, ht⟩
    exact ⟨t, ht.symm⟩
  · rintro ⟨t, ht⟩
    exact ⟨t, ht.symm⟩

/-- The test `kstring_length (s) > 0`. -/
theorem kstring_length_pos (s : KString) : kstring_length s > 0 ↔ s ≠ [] := by
  unfold kstring_length
  cases s <;> simp

/-- The context after `fkre_do_word`, field by field. -/
theorem fkre_do_word_eq (context : FKREContext) (word : KString) :
    fkre_do_word context word =
      { html := context.html
        words :=
          if fkre_extract_letters word = [] then context.words else context.words + 1
        sentences :=
          if word.getLast? = some 46 ∨ word.getLast? = some 63 then context.sentences + 1
          else context.sentences
        current_sentence_length :=
          (if word.getLast? = some 46 ∨ word.getLast? = some 63 then 0
            else context.current_sentence_length)
          + (if fkre_extract_letters word = [] then 0 else 1)
        max_sentence_length :=
          if word.getLast? = some 46 ∨ word.getLast? = some 63 then
            max context.max_sentence_length context.current_sentence_length
          else context.max_sentence_length
        syllables :=
          if fkre_extract_letters word = [] then context.syllables
          else context.syllables + fkre_count_syllables (fkre_extract_letters word)
        score := context.score
        words_in_this_subheading :=
          if fkre_extract_letters word = [] then context.words_in_this_subheading
          else context.words_in_this_subheading + 1
        subheadings := context.subheadings
        maximum_words_per_subheading := context.maximum_words_per_subheading
        last_word :=
          if fkre_extract_letters word = [] then context.last_word
          else fkre_extract_letters word
        passive_sentences :=
          if fkre_extract_letters word ≠ []
              ∧ fkre_count_syllables (fkre_extract_letters word) > 1
              ∧ utf8 "ed" <:+ fkre_extract_letters word
              ∧ (context.last_word = utf8 "is" ∨ context.last_word = utf8 "was"
                  ∨ context.last_word = utf8 "being") then
            context.passive_sentences + 1
          else context.passive_sentences } := by
  have hdot : utf8 "." = [46] := by decide
  have hq : utf8 "?" = [63] := by decide
  have e1 := kstring_ends_with_singleton word 46
  have e2 := kstring_ends_with_singleton word 63
  have hed : kstring_ends_with_utf8 (fkre_extract_letters word) (utf8 "ed") = true
      ↔ utf8 "ed" <:+ fkre_extract_letters word := by
    unfold kstring_ends_with_utf8
    exact List.isSuffixOf_iff_suffix
  have hlen := kstring_length_pos (fkre_extract_letters word)
  obtain ⟨html, words, sentences, csl, msl, syllables, score, wits, subh, mwps, lw, ps⟩ := context
  unfold fkre_do_word
  simp only [hdot, hq, e1, e2, hed, hlen, kstring_strcmp_utf8_eq_zero]
  by_cases h1 : word.getLast? = some 46 <;> by_cases h2 : word.getLast? = some 63 <;>
    by_cases hm : csl > msl <;> by_cases hc : fkre_extract_letters word = [] <;>
    by_cases hs : 1 < fkre_count_syllables (fkre_extract_letters word) <;>
    by_cases he : utf8 "ed" <:+ fkre_extract_letters word <;>
    by_cases hl : lw = utf8 "is" ∨ lw = utf8 "was" ∨ lw = utf8 "being" <;>
    simp [h1, h2, hm, hc, hs, he, hl] <;> omega

/-- C12: for every context and raw word, `fkre_do_word` adds exactly 1 to
`sentences` if the last character of the raw word is '.' (46) or '?' (63) and
leaves `sentences` unchanged otherwise; in the terminating case
`max_sentence_length` becomes the maximum of its old value and the old
`current_sentence_length` (otherwise it is unchanged).  A word ending in '!' or
in a full stop followed by a double quote (34) does not end a sentence. -/
theorem fkre_do_word_sentences (context : FKREContext) (word : KString) :
    (fkre_do_word context word).sentences
        = (if word.getLast? = some 46 ∨ word.getLast? = some 63 then context.sentences + 1
            else context.sentences)
    ∧ (fkre_do_word context word).max_sentence_length
        = (if word.getLast? = some 46 ∨ word.getLast? = some 63 then
            max context.max_sentence_length context.current_sentence_length
            else context.max_sentence_length)
    ∧ (fkre_do_word context (utf8 "Stop!")).sentences = context.sentences
    ∧ (fkre_do_word context (utf8 "end." ++ [34])).sentences = context.sentences := by
  refine ⟨?_, ?_, ?_, ?_⟩
  · rw [fkre_do_word_eq]
  · rw [fkre_do_word_eq]
  · rw [fkre_do_word_eq]
    have h : (utf8 "Stop!").getLast? = some 33 := by decide
    simp [h]
  · rw [fkre_do_word_eq]
    have h : (utf8 "end." ++ [34]).getLast? = some 34 := by decide
    simp [h]

/-- C13: for every context and raw word, `fkre_do_word` adds exactly 1 to
`passive_sentences` if and only if the clean word is not empty, its syllable
estimate is greater than 1, it ends with "ed" and `last_word` is exactly "is",
"was" or "being"; otherwise `passive_sentences` is unchanged.  After "Was" the
heuristic does not fire, and two qualifying words of one sentence add 2. -/
theorem fkre_do_word_passive (context : FKREContext) (word : KString) :
    (fkre_do_word context word).passive_sentences
        = (if fkre_extract_letters word ≠ []
              ∧ fkre_count_syllables (fkre_extract_letters word) > 1
              ∧ utf8 "ed" <:+ fkre_extract_letters word
              ∧ (context.last_word = utf8 "is" ∨ context.last_word = utf8 "was"
                  ∨ context.last_word = utf8 "being") then
            context.passive_sentences + 1
          else context.passive_sentences)
    ∧ (fkre_do_word { FKREContext.zeroed false with last_word := utf8 "Was" }
          (utf8 "painted")).passive_sentences = 0
    ∧ (fkre_process (FKREContext.zeroed false) (utf8 "It was painted and is varnished. ")).map
          (fun c => (c.sentences, c.passive_sentences)) = some (1, 2) := by
  refine ⟨?_, ?_, ?_⟩
  · rw [fkre_do_word_eq]
  · decide
  · decide

/-- The context after `fkre_got_subheading`, field by field. -/
theorem fkre_got_subheading_eq (context : FKREContext) :
    fkre_got_subheading context =
      { context with
        maximum_words_per_subheading :=
          max context.maximum_words_per_subheading context.words_in_this_subheading
        words_in_this_subheading := 0 } := by
  unfold fkre_got_subheading
  by_cases h : context.words_in_this_subheading > context.maximum_words_per_subheading
  · simp [h, max_eq_right (le_of_lt h)]
  · simp [h, max_eq_left (not_lt.mp h)]

/-- The context after `fkre_do_tag`: a heading is counted exactly when the tag
is not empty, its first character is `h` or `H` and the code point read at
index 1 is a digit from 1 to 9. -/
theorem fkre_do_tag_eq (context : FKREContext) (tag : KString) :
    fkre_do_tag context tag =
      if tag ≠ [] ∧ (tag.getD 0 0 = 104 ∨ tag.getD 0 0 = 72)
          ∧ 49 ≤ tag.getD 1 0 ∧ tag.getD 1 0 ≤ 57 then
        { context with
          subheadings := context.subheadings + 1
          maximum_words_per_subheading :=
            max context.maximum_words_per_subheading context.words_in_this_subheading
          words_in_this_subheading := 0 }
      else context := by
  have hlen : kstring_length tag ≥ 1 ↔ tag ≠ [] := by
    unfold kstring_length
    cases tag <;> simp
  have hh : ('h'.toNat = 104) ∧ ('H'.toNat = 72) ∧ ('1'.toNat = 49) ∧ ('9'.toNat = 57) := by
    decide
  unfold fkre_do_tag kstring_get
  simp only [hlen, hh.1, hh.2.1, hh.2.2.1, hh.2.2.2, fkre_got_subheading_eq]
  by_cases h0 : tag = [] <;> by_cases h1 : tag.getD 0 0 = 104 ∨ tag.getD 0 0 = 72 <;>
    by_cases h2 : 49 ≤ tag.getD 1 0 ∧ tag.getD 1 0 ≤ 57 <;>
    simp_all

/-- The function `fkre_do_tag` leaves `last_word` as it is. -/
theorem fkre_do_tag_last_word (context : FKREContext) (tag : KString) :
    (fkre_do_tag context tag).last_word = context.last_word := by
  rw [fkre_do_tag_eq]
  split_ifs <;> rfl

/-- The context after one step of the loop is the context before it with the
analyzer applied to the units dispatched by the step. -/
theorem fkre_step_context (s s1 : Scan) (c : UTF32) (h : fkre_step s c = some s1) :
    s1.context = (dispatched_at s c).foldl analyze s.context := by
  rw [fkre_step_eq_transition] at h
  have h1 : s1 = transition_spec s (classify_spec (c : Int) s.context.html) c :=
    (Option.some.inj h).symm
  subst h1
  unfold dispatched_at
  rw [fkre_classify_toType]
  obtain ⟨ctx, st, tag, word⟩ := s
  cases st <;> cases hcat : classify_spec (c : Int) ctx.html <;>
    simp [transition_spec, Category.toType, analyze, hcat]

/-- The context after the loop is the context before it with the analyzer
applied, in order, to the dispatched units. -/
theorem fkre_loop_context (s : Scan) (text : KString) :
    (fkre_loop s text).map (fun s1 => s1.context)
      = some ((dispatched s text).foldl analyze s.context) := by
  induction text generalizing s with
  | nil => simp [fkre_loop, dispatched]
  | cons c rest ih =>
    obtain ⟨s1, h1⟩ : ∃ s1, fkre_step s c = some s1 := ⟨_, fkre_step_eq_transition s c⟩
    simp only [fkre_loop, dispatched, h1, List.foldl_append]
    rw [ih s1, fkre_step_context s s1 c h1]

/-- The field `last_word` after the analyzer has been applied to a list of units. -/
theorem foldl_analyze_last_word (ds : List Dispatched) (context : FKREContext) :
    (ds.foldl analyze context).last_word = most_recent_clean context.last_word (words_of ds) := by
  induction ds generalizing context with
  | nil => simp [most_recent_clean, words_of]
  | cons d rest ih =>
    rw [List.foldl_cons, ih]
    cases d with
    | tag t => simp [analyze, words_of, fkre_do_tag_last_word]
    | word w =>
      simp only [analyze, words_of, fkre_do_word_eq]
      unfold most_recent_clean
      by_cases hc : fkre_extract_letters w = []
      · simp [hc]
      · have hne : (fkre_extract_letters w).isEmpty = false := by
          cases hw : fkre_extract_letters w with
          | nil => exact absurd hw hc
          | cons a l => rfl
        simp only [List.map_cons, List.filter_cons, hne, Bool.not_false, if_true, if_neg hc,
          List.getLast?_cons]
        cases (List.filter (fun w => !w.isEmpty) (List.map fkre_extract_letters (words_of rest))).getLast? <;>
          simp

/-- C14: after `fkre_do_word` on any raw word, `last_word` is the clean form of
the word if that form is not empty and is unchanged if it is empty.  Hence at
the end of the loop of `fkre_process` over any text (so at every point of a
scan), `last_word` is the clean form of the most recent dispatched word whose
clean form is not empty, and is empty when there is no such word; a
punctuation-only token between "was" and a word in "ed" does not block the
passive lookback. -/
theorem fkre_do_word_last_word (context : FKREContext) (word text : KString) :
    (fkre_do_word context word).last_word
        = (if fkre_extract_letters word = [] then context.last_word
            else fkre_extract_letters word)
    ∧ (fkre_loop (fkre_init context) text).map (fun s => s.context.last_word)
        = some (most_recent_clean [] (words_of (dispatched (fkre_init context) text)))
    ∧ (fkre_process (FKREContext.zeroed false) (utf8 "was -- painted ")).map
          (fun c => (c.words, c.passive_sentences)) = some (2, 1) := by
  refine ⟨?_, ?_, ?_⟩
  · rw [fkre_do_word_eq]
  · have h := fkre_loop_context (fkre_init context) text
    obtain ⟨s1, h1⟩ := fkre_loop_isSome (fkre_init context) text
    rw [h1] at h ⊢
    simp only [Option.map_some', Option.some.injEq] at h ⊢
    rw [h, foldl_analyze_last_word]
    rfl
  · decide

/-- A word without letters has an empty clean form. -/
theorem fkre_extract_letters_eq_nil (word : KString) (h : ∀ c ∈ word, ¬ is_letter c) :
    fkre_extract_letters word = [] := by
  induction word with
  | nil => rfl
  | cons c rest ih =>
    have hc : ¬ is_letter c := h c (List.mem_cons_self c rest)
    have hr : fkre_extract_letters rest = [] :=
      ih (fun d hd => h d (List.mem_cons_of_mem c hd))
    have hh : ('a'.toNat = 97) ∧ ('z'.toNat = 122) ∧ ('A'.toNat = 65) ∧ ('Z'.toNat = 90) := by
      decide
    unfold is_letter at hc
    simp only [fkre_extract_letters, hh.1, hh.2.1, hh.2.2.1, hh.2.2.2, hr]
    rw [if_neg]
    intro hl
    exact hc hl

/-- C15: for every raw word that contains no ASCII letter and no code point in
192..255, `fkre_do_word` leaves `words`, `syllables`, `words_in_this_subheading`,
`passive_sentences` and `last_word` unchanged; only the sentence fields may
change. -/
theorem fkre_do_word_no_letters (context : FKREContext) (word : KString)
    (h : ∀ c ∈ word, ¬ is_letter c) :
    (fkre_do_word context word).words = context.words
    ∧ (fkre_do_word context word).syllables = context.syllables
    ∧ (fkre_do_word context word).words_in_this_subheading = context.words_in_this_subheading
    ∧ (fkre_do_word context word).passive_sentences = context.passive_sentences
    ∧ (fkre_do_word context word).last_word = context.last_word := by
  have hc := fkre_extract_letters_eq_nil word h
  rw [fkre_do_word_eq]
  simp [hc]

/-- C15 (witness): the token "." has no letters; it leaves the five fields
unchanged (and it does add 1 to `sentences`). -/
theorem fkre_do_word_no_letters_witness :
    (∀ c ∈ utf8 ".", ¬ is_letter c)
    ∧ (fkre_do_word (FKREContext.zeroed false) (utf8 ".")).sentences = 1
    ∧ ((fkre_do_word (FKREContext.zeroed false) (utf8 ".")).words
          = (FKREContext.zeroed false).words
      ∧ (fkre_do_word (FKREContext.zeroed false) (utf8 ".")).syllables
          = (FKREContext.zeroed false).syllables
      ∧ (fkre_do_word (FKREContext.zeroed false) (utf8 ".")).words_in_this_subheading
          = (FKREContext.zeroed false).words_in_this_subheading
      ∧ (fkre_do_word (FKREContext.zeroed false) (utf8 ".")).passive_sentences
          = (FKREContext.zeroed false).passive_sentences
      ∧ (fkre_do_word (FKREContext.zeroed false) (utf8 ".")).last_word
          = (FKREContext.zeroed false).last_word) :=
  ⟨by decide, by decide,
    fkre_do_word_no_letters (FKREContext.zeroed false) (utf8 ".") (by decide)⟩

/-- C16: for every context and every tag of at least two characters `a`, `b`:
if `a` is `h` (104) or `H` (72) and `b` is a digit from `1` (49) to `9` (57),
`fkre_do_tag` adds 1 to `subheadings`, sets `maximum_words_per_subheading` to
the maximum of its old value and `words_in_this_subheading`, and resets
`words_in_this_subheading` to 0; otherwise the context is unchanged, as for the
closing tag "/h1" and the tag "hr".  The empty tag changes nothing either. -/
theorem fkre_do_tag_heading (context : FKREContext) (a b : UTF32) (rest : KString) :
    fkre_do_tag context (a :: b :: rest)
        = (if (a = 104 ∨ a = 72) ∧ 49 ≤ b ∧ b ≤ 57 then
            { context with
              subheadings := context.subheadings + 1
              maximum_words_per_subheading :=
                max context.maximum_words_per_subheading context.words_in_this_subheading
              words_in_this_subheading := 0 }
          else context)
    ∧ fkre_do_tag context [] = context
    ∧ fkre_do_tag context (utf8 "/h1") = context
    ∧ fkre_do_tag context (utf8 "hr") = context := by
  refine ⟨?_, ?_, ?_, ?_⟩
  · rw [fkre_do_tag_eq]
    simp
  · rw [fkre_do_tag_eq]
    simp
  · rw [fkre_do_tag_eq]
    have h : ¬ ((utf8 "/h1").getD 0 0 = 104 ∨ (utf8 "/h1").getD 0 0 = 72) := by decide
    rw [if_neg]
    exact fun hh => h hh.2.1
  · rw [fkre_do_tag_eq]
    have h : ¬ (49 ≤ (utf8 "hr").getD 1 0 ∧ (utf8 "hr").getD 1 0 ≤ 57) := by decide
    rw [if_neg]
    exact fun hh => h hh.2.2

/-- A word that contains a vowel has at least one vowel-group start. -/
theorem group_starts_from_pos (word : KString) (h : ∃ c ∈ word, is_vowel c = true) :
    1 ≤ group_starts_from false word := by
  induction word with
  | nil =>
    obtain ⟨c, hc, _⟩ := h
    exact absurd hc (List.not_mem_nil c)
  | cons a rest ih =>
    by_cases ha : is_vowel a = true
    · simp [group_starts_from, ha]
    · have hr : ∃ c ∈ rest, is_vowel c = true := by
        obtain ⟨c, hc, hv⟩ := h
        rcases List.mem_cons.mp hc with hca | hcr
        · subst hca
          exact absurd hv ha
        · exact ⟨c, hcr, hv⟩
      have hfalse : is_vowel a = false := by simpa using ha
      simp only [group_starts_from, hfalse]
      have := ih hr
      omega

/-- The syllable estimate is never negative: a suffix correction applies only
to a word that contains the vowel `e`. -/
theorem fkre_count_syllables_nonneg (word : KString) : 0 ≤ fkre_count_syllables word := by
  unfold fkre_count_syllables kstring_ends_with_utf8
  simp only [syllable_loop_eq, List.isSuffixOf_iff_suffix]
  have he : is_vowel 101 = true := by decide
  split_ifs with h1 h2
  · have hm : (101 : UTF32) ∈ word := h1.subset (by decide)
    have := group_starts_from_pos word ⟨101, hm, he⟩
    omega
  · have hm : (101 : UTF32) ∈ word := h2.subset (by decide)
    have := group_starts_from_pos word ⟨101, hm, he⟩
    omega
  · omega

/-- The three counts do not decrease under one analyzer call. -/
theorem analyze_mono (context : FKREContext) (d : Dispatched) :
    context.words ≤ (analyze context d).words
    ∧ context.sentences ≤ (analyze context d).sentences
    ∧ context.syllables ≤ (analyze context d).syllables := by
  cases d with
  | word w =>
    have hs := fkre_count_syllables_nonneg (fkre_extract_letters w)
    simp only [analyze, fkre_do_word_eq]
    refine ⟨?_, ?_, ?_⟩ <;> split_ifs <;> omega
  | tag t =>
    simp only [analyze, fkre_do_tag_eq]
    refine ⟨?_, ?_, ?_⟩ <;> split_ifs <;> simp

/-- The three counts do not decrease under a sequence of analyzer calls. -/
theorem foldl_analyze_mono (ds : List Dispatched) (context : FKREContext) :
    context.words ≤ (ds.foldl analyze context).words
    ∧ context.sentences ≤ (ds.foldl analyze context).sentences
    ∧ context.syllables ≤ (ds.foldl analyze context).syllables := by
  induction ds generalizing context with
  | nil => simp
  | cons d rest ih =>
    have h1 := analyze_mono context d
    have h2 := ih (analyze context d)
    rw [List.foldl_cons]
    omega

/-- C17: for every context whose `words`, `sentences` and `syllables` are not
negative and every dispatched word or tag, each of the three counts after the
analyzer call is at least its value before (and so not negative); the same
holds from any point of a scan to any later point. -/
theorem fkre_counts_monotone (context : FKREContext)
    (hw : 0 ≤ context.words) (hs : 0 ≤ context.sentences) (hy : 0 ≤ context.syllables) :
    (∀ word : KString,
        context.words ≤ (fkre_do_word context word).words
        ∧ context.sentences ≤ (fkre_do_word context word).sentences
        ∧ context.syllables ≤ (fkre_do_word context word).syllables
        ∧ 0 ≤ (fkre_do_word context word).words
        ∧ 0 ≤ (fkre_do_word context word).sentences
        ∧ 0 ≤ (fkre_do_word context word).syllables)
    ∧ (∀ tag : KString,
        context.words ≤ (fkre_do_tag context tag).words
        ∧ context.sentences ≤ (fkre_do_tag context tag).sentences
        ∧ context.syllables ≤ (fkre_do_tag context tag).syllables
        ∧ 0 ≤ (fkre_do_tag context tag).words
        ∧ 0 ≤ (fkre_do_tag context tag).sentences
        ∧ 0 ≤ (fkre_do_tag context tag).syllables)
    ∧ (∀ (state : State) (tag word text : KString),
        ∃ s1, fkre_loop { context := context, state := state, tag := tag, word := word } text
            = some s1
          ∧ context.words ≤ s1.context.words
          ∧ context.sentences ≤ s1.context.sentences
          ∧ context.syllables ≤ s1.context.syllables) := by
  refine ⟨?_, ?_, ?_⟩
  · intro word
    have h := analyze_mono context (Dispatched.word word)
    simp only [analyze] at h
    omega
  · intro tag
    have h := analyze_mono context (Dispatched.tag tag)
    simp only [analyze] at h
    omega
  · intro state tag word text
    obtain ⟨s1, h1⟩ := fkre_loop_isSome
      { context := context, state := state, tag := tag, word := word } text
    have h := fkre_loop_context
      { context := context, state := state, tag := tag, word := word } text
    rw [h1] at h
    simp only [Option.map_some', Option.some.injEq] at h
    have hm := foldl_analyze_mono
      (dispatched { context := context, state := state, tag := tag, word := word } text) context
    rw [← h] at hm
    exact ⟨s1, h1, hm⟩

/-- C17 (witness): the statement at the zeroed context. -/
theorem fkre_counts_monotone_witness :
    0 ≤ (FKREContext.zeroed false).words ∧ 0 ≤ (FKREContext.zeroed false).sentences
    ∧ 0 ≤ (FKREContext.zeroed false).syllables
    ∧ (∀ word : KString,
        (FKREContext.zeroed false).words ≤ (fkre_do_word (FKREContext.zeroed false) word).words
        ∧ (FKREContext.zeroed false).sentences
            ≤ (fkre_do_word (FKREContext.zeroed false) word).sentences
        ∧ (FKREContext.zeroed false).syllables
            ≤ (fkre_do_word (FKREContext.zeroed false) word).syllables
        ∧ 0 ≤ (fkre_do_word (FKREContext.zeroed false) word).words
        ∧ 0 ≤ (fkre_do_word (FKREContext.zeroed false) word).sentences
        ∧ 0 ≤ (fkre_do_word (FKREContext.zeroed false) word).syllables) :=
  ⟨by decide, by decide, by decide,
    (fkre_counts_monotone (FKREContext.zeroed false) (by decide) (by decide) (by decide)).1⟩

/-- C18: `fkre_calculate_score` returns `TRUE` if and only if `sentences > 0`
and `words > 0` (so the two divisions are evaluated with non-zero divisors
only), and it then sets `score` to
`206.835 - 1.015 * (words / sentences) - 84.6 * (syllables / words)`; otherwise
it returns `FALSE` and the context, `score` included, is unchanged.  In either
case no field other than `score` is written.  With one word of one syllable
in one sentence a `score` of 0 becomes 121.22. -/
theorem fkre_calculate_score_succeeds_iff (context : FKREContext) :
    ((fkre_calculate_score context).1 = true ↔ context.sentences > 0 ∧ context.words > 0)
    ∧ ((fkre_calculate_score context).1 = true
        ∨ fkre_calculate_score context = (false, context))
    ∧ (fkre_calculate_score context).2
        = { context with score := (fkre_calculate_score context).2.score }
    ∧ (fkre_calculate_score context).2.score
        = (if context.sentences > 0 ∧ context.words > 0 then
            206.835 - 1.015 * ((context.words : Rat) / (context.sentences : Rat))
              - 84.6 * ((context.syllables : Rat) / (context.words : Rat))
          else context.score)
    ∧ fkre_calculate_score
          { FKREContext.zeroed false with words := 1, sentences := 1, syllables := 1 }
        = (true, { FKREContext.zeroed false with
                    words := 1, sentences := 1, syllables := 1, score := 12122 / 100 }) := by
  refine ⟨?_, ?_, ?_, ?_, ?_⟩
  · unfold fkre_calculate_score
    by_cases h : context.sentences > 0 ∧ context.words > 0 <;> simp [h]
  · unfold fkre_calculate_score
    by_cases h : context.sentences > 0 ∧ context.words > 0 <;> simp [h]
  · unfold fkre_calculate_score
    by_cases h : context.sentences > 0 ∧ context.words > 0 <;> simp [h]
  · unfold fkre_calculate_score
    by_cases h : context.sentences > 0 ∧ context.words > 0 <;> simp [h]
  · simp [fkre_calculate_score, FKREContext.zeroed]
    norm_num

/-- C19: with `words = 100`, `sentences = 5` and `syllables = 150` the score
computed by `fkre_calculate_score` in exact rational arithmetic is 59.635, and
the rating cascade of `main` selects "fairly difficult" for it. -/
theorem fkre_calculate_score_spot_check :
    (fkre_calculate_score
        { FKREContext.zeroed false with words := 100, sentences := 5, syllables := 150 }).1 = true
    ∧ (fkre_calculate_score
        { FKREContext.zeroed false with words := 100, sentences := 5, syllables := 150 }).2.score
        = 59635 / 1000
    ∧ fk_rating (fkre_calculate_score
        { FKREContext.zeroed false with words := 100, sentences := 5, syllables := 150 }).2.score
        = "fairly difficult" := by
  have h2 : (fkre_calculate_score
      { FKREContext.zeroed false with words := 100, sentences := 5, syllables := 150 }).2.score
      = 59635 / 1000 := by
    simp [fkre_calculate_score, FKREContext.zeroed]
    norm_num
  refine ⟨?_, h2, ?_⟩
  · simp [fkre_calculate_score, FKREContext.zeroed]
  · rw [h2]
    unfold fk_rating
    norm_num

/-- The function `fkre_do_tag` leaves `sentences` as it is. -/
theorem fkre_do_tag_sentences (context : FKREContext) (tag : KString) :
    (fkre_do_tag context tag).sentences = context.sentences := by
  rw [fkre_do_tag_eq]
  split_ifs <;> rfl

/-- On a word without '.' and '?' the function `fkre_do_word` leaves
`sentences` as it is. -/
theorem do_word_keeps_sentences (context : FKREContext) (word : KString)
    (h : ∀ c ∈ word, c ≠ 46 ∧ c ≠ 63) :
    (fkre_do_word context word).sentences = context.sentences := by
  rw [fkre_do_word_eq]
  have h1 : ¬ (word.getLast? = some 46 ∨ word.getLast? = some 63) := by
    rintro (h46 | h63)
    · exact (h 46 (List.mem_of_mem_getLast? h46)).1 rfl
    · exact (h 63 (List.mem_of_mem_getLast? h63)).2 rfl
  simp [h1]

/-- One step of the loop on a character other than '.' and '?' keeps
`sentences` at 0 and the word buffer free of '.' and '?'. -/
theorem fkre_step_no_sentence (s s1 : Scan) (c : UTF32) (hc : c ≠ 46 ∧ c ≠ 63)
    (hs : s.context.sentences = 0) (hw : ∀ d ∈ s.word, d ≠ 46 ∧ d ≠ 63)
    (h : fkre_step s c = some s1) :
    s1.context.sentences = 0 ∧ ∀ d ∈ s1.word, d ≠ 46 ∧ d ≠ 63 := by
  rw [fkre_step_eq_transition] at h
  have h1 : s1 = transition_spec s (classify_spec (c : Int) s.context.html) c :=
    (Option.some.inj h).symm
  subst h1
  have hword := do_word_keeps_sentences s.context s.word hw
  have htag := fkre_do_tag_sentences s.context s.tag
  have happ : ∀ d ∈ s.word ++ [c], d ≠ 46 ∧ d ≠ 63 := by
    intro d hd
    rcases List.mem_append.mp hd with h1 | h1
    · exact hw d h1
    · rw [List.mem_singleton.mp h1]
      exact hc
  obtain ⟨ctx, st, tag, word⟩ := s
  cases st <;> cases hcat : classify_spec (c : Int) ctx.html <;>
    simp_all [transition_spec]

/-- The loop over a text without '.' and '?' keeps `sentences` at 0. -/
theorem fkre_loop_no_sentence (text : KString) (s : Scan)
    (ht : ∀ c ∈ text, c ≠ 46 ∧ c ≠ 63)
    (hs : s.context.sentences = 0) (hw : ∀ d ∈ s.word, d ≠ 46 ∧ d ≠ 63) :
    ∃ s1, fkre_loop s text = some s1 ∧ s1.context.sentences = 0 := by
  induction text generalizing s with
  | nil => exact ⟨s, rfl, hs⟩
  | cons c rest ih =>
    obtain ⟨s2, h2⟩ : ∃ s2, fkre_step s c = some s2 := ⟨_, fkre_step_eq_transition s c⟩
    have hinv := fkre_step_no_sentence s s2 c (ht c (List.mem_cons_self c rest)) hs hw h2
    obtain ⟨s1, h1, h0⟩ := ih s2 (fun d hd => ht d (List.mem_cons_of_mem c hd)) hinv.1 hinv.2
    exact ⟨s1, by simp only [fkre_loop, h2, h1], h0⟩

/-- C20: for every document without the code points '.' (46) and '?' (63), in
either mode, `fkre_process` from the zeroed context returns with
`sentences = 0`, and `fkre_calculate_score` then returns `FALSE` and leaves the
context unchanged; `words` and `syllables` are populated all the same, as for
"hello world " in plain mode (`words = 2`, `syllables = 3`). -/
theorem fkre_process_no_sentence (html : Bool) (text : KString)
    (h1 : 46 ∉ text) (h2 : 63 ∉ text) :
    (∃ r, fkre_process (FKREContext.zeroed html) text = some r
      ∧ r.sentences = 0
      ∧ fkre_calculate_score r = (false, r))
    ∧ (fkre_process (FKREContext.zeroed false) (utf8 "hello world ")).map
        (fun c => (c.words, c.syllables, c.sentences)) = some (2, 3, 0) := by
  refine ⟨?_, by decide⟩
  have ht : ∀ c ∈ text, c ≠ 46 ∧ c ≠ 63 := by
    intro c hc
    exact ⟨fun h => h1 (h ▸ hc), fun h => h2 (h ▸ hc)⟩
  obtain ⟨s1, hl, h0⟩ := fkre_loop_no_sentence text (fkre_init (FKREContext.zeroed html)) ht rfl
    (by intro d hd; exact absurd hd (List.not_mem_nil d))
  have hscore : ∀ r : FKREContext, r.sentences = 0 → fkre_calculate_score r = (false, r) := by
    intro r hr
    simp [fkre_calculate_score, hr]
  unfold fkre_process
  rw [hl]
  by_cases hh : s1.context.html = true
  · have hg : (fkre_got_subheading s1.context).sentences = 0 := by
      rw [fkre_got_subheading_eq]
      exact h0
    exact ⟨fkre_got_subheading s1.context, by simp [hh], hg, hscore _ hg⟩
  · exact ⟨s1.context, by simp [hh], h0, hscore _ h0⟩

/-- C20 (witness): the document "hello" in HTML mode has no '.' and no '?'. -/
theorem fkre_process_no_sentence_witness :
    46 ∉ utf8 "hello" ∧ 63 ∉ utf8 "hello"
    ∧ ((∃ r, fkre_process (FKREContext.zeroed true) (utf8 "hello") = some r
        ∧ r.sentences = 0
        ∧ fkre_calculate_score r = (false, r))
      ∧ (fkre_process (FKREContext.zeroed false) (utf8 "hello world ")).map
          (fun c => (c.words, c.syllables, c.sentences)) = some (2, 3, 0)) :=
  ⟨by decide, by decide,
    fkre_process_no_sentence true (utf8 "hello") (by decide) (by decide)⟩

/-- C23: `fkre_extract_letters` is an order-preserving filter: for every word
the result is the list of its code points `c` with 97 ≤ c ≤ 122 (`a` to `z`),
65 ≤ c ≤ 90 (`A` to `Z`) or 192 ≤ c ≤ 255, in their original order; every other
code point is dropped (as the digits, the punctuation and the code point 256 of
the example). -/
theorem fkre_extract_letters_eq_filter (word : KString) :
    fkre_extract_letters word = word.filter (fun c => decide (is_letter c))
    ∧ fkre_extract_letters (utf8 "a1b2-C!" ++ [191, 192, 255, 256]) = utf8 "abC" ++ [192, 255] := by
  refine ⟨?_, by decide⟩
  have hh : ('a'.toNat = 97) ∧ ('z'.toNat = 122) ∧ ('A'.toNat = 65) ∧ ('Z'.toNat = 90) := by
    decide
  induction word with
  | nil => rfl
  | cons c rest ih =>
    simp only [fkre_extract_letters, hh.1, hh.2.1, hh.2.2.1, hh.2.2.2, List.filter_cons, ih]
    by_cases hl : is_letter c
    · have hl2 := hl
      unfold is_letter at hl2
      simp [hl, hl2]
    · have hl2 := hl
      unfold is_letter at hl2
      simp [hl, hl2]

/-- C24: for every word (any code points, any length) the syllable estimate is
not negative; the one-letter word "e" and the word "es" give exactly 0. -/
theorem fkre_count_syllables_ge_zero (word : KString) :
    fkre_count_syllables word ≥ 0
    ∧ fkre_count_syllables (utf8 "e") = 0
    ∧ fkre_count_syllables (utf8 "es") = 0 := by
  exact ⟨fkre_count_syllables_nonneg word, by decide, by decide⟩

/-- C29 (the code reads index 1 of a one-character tag): scanning "<h>" in HTML
mode dispatches the tag "h", of length 1, and `fkre_do_tag` on it passes the
index 1 to `kstring_get`; the same holds for "H". -/
theorem fkre_do_tag_reads_past_end :
    dispatched (fkre_init (FKREContext.zeroed true)) (utf8 "<h>") = [Dispatched.tag (utf8 "h")]
    ∧ kstring_length (utf8 "h") = 1
    ∧ 1 ∈ fkre_do_tag_reads (utf8 "h")
    ∧ dispatched (fkre_init (FKREContext.zeroed true)) (utf8 "<H>") = [Dispatched.tag (utf8 "H")]
    ∧ kstring_length (utf8 "H") = 1
    ∧ 1 ∈ fkre_do_tag_reads (utf8 "H") := by
  decide

/-- Closing a tally: if the `w - c` words of the closed units are at most
`s * m` and at least `m`, then after the open unit of `c` words is closed all
`w` words are at most `(s + 1) * max m c` and at least `max m c`. -/
theorem close_tally (w c s m : Int) (hs : 0 ≤ s) (hc : 0 ≤ c) (hm : 0 ≤ m)
    (h1 : w - c ≤ s * m) :
    0 ≤ max m c ∧ w ≤ (s + 1) * max m c ∧ (m ≤ w - c → max m c ≤ w) := by
  rcases le_total m c with h | h
  · rw [max_eq_right h]
    have hmul : s * m ≤ s * c := mul_le_mul_of_nonneg_left h hs
    refine ⟨hc, ?_, ?_⟩
    · rw [add_mul, one_mul]
      omega
    · intro h2
      omega
  · rw [max_eq_left h]
    refine ⟨hm, ?_, ?_⟩
    · rw [add_mul, one_mul]
      omega
    · intro h2
      omega

/-- The sentence-length accounting is kept by `fkre_do_word`. -/
theorem sentence_accounting_do_word (context : FKREContext) (word : KString)
    (h : sentence_accounting context) : sentence_accounting (fkre_do_word context word) := by
  obtain ⟨hs, hc, hm, h1, h2⟩ := h
  obtain ⟨k0, k1, k2⟩ := close_tally context.words context.current_sentence_length
    context.sentences context.max_sentence_length hs hc hm h1
  have k3 := k2 h2
  unfold sentence_accounting
  rw [fkre_do_word_eq]
  by_cases he : word.getLast? = some 46 ∨ word.getLast? = some 63 <;>
    by_cases hl : fkre_extract_letters word = [] <;>
    simp only [he, hl, if_true, if_false] <;>
    refine ⟨by omega, by omega, by omega, ?_, ?_⟩ <;>
    omega

/-- The sentence-length accounting is kept by `fkre_do_tag`. -/
theorem sentence_accounting_do_tag (context : FKREContext) (tag : KString)
    (h : sentence_accounting context) : sentence_accounting (fkre_do_tag context tag) := by
  rw [fkre_do_tag_eq]
  split_ifs
  · exact h
  · exact h

/-- The sentence-length accounting is kept by a sequence of analyzer calls. -/
theorem sentence_accounting_foldl (ds : List Dispatched) (context : FKREContext)
    (h : sentence_accounting context) : sentence_accounting (ds.foldl analyze context) := by
  induction ds generalizing context with
  | nil => exact h
  | cons d rest ih =>
    rw [List.foldl_cons]
    apply ih
    cases d with
    | word w => exact sentence_accounting_do_word context w h
    | tag t => exact sentence_accounting_do_tag context t h

/-- The two inequalities on `words` follow from the accounting. -/
theorem sentence_accounting_bounds (context : FKREContext) (h : sentence_accounting context) :
    context.words ≤ context.sentences * context.max_sentence_length
        + context.current_sentence_length
    ∧ context.max_sentence_length ≤ context.words := by
  obtain ⟨hs, hc, hm, h1, h2⟩ := h
  constructor <;> omega

/-- C26: for every document and either mode, at the end of the loop of
`fkre_process` from zeroed statistics over the document or over any part of it
read so far (so after every analyzer step), and in the context that
`fkre_process` returns, `words ≤ sentences * max_sentence_length +
current_sentence_length` and `max_sentence_length ≤ words`. -/
theorem fkre_process_sentence_accounting (html : Bool) (text : KString) :
    (∃ s, fkre_loop (fkre_init (FKREContext.zeroed html)) text = some s
      ∧ s.context.words ≤ s.context.sentences * s.context.max_sentence_length
          + s.context.current_sentence_length
      ∧ s.context.max_sentence_length ≤ s.context.words)
    ∧ (∃ r, fkre_process (FKREContext.zeroed html) text = some r
      ∧ r.words ≤ r.sentences * r.max_sentence_length + r.current_sentence_length
      ∧ r.max_sentence_length ≤ r.words) := by
  obtain ⟨s1, h1⟩ := fkre_loop_isSome (fkre_init (FKREContext.zeroed html)) text
  have hctx := fkre_loop_context (fkre_init (FKREContext.zeroed html)) text
  rw [h1] at hctx
  simp only [Option.map_some', Option.some.injEq] at hctx
  have h0 : sentence_accounting (fkre_init (FKREContext.zeroed html)).context := by
    unfold sentence_accounting
    simp [fkre_init, FKREContext.zeroed]
  have hacc : sentence_accounting s1.context := by
    rw [hctx]
    exact sentence_accounting_foldl _ _ h0
  have hb := sentence_accounting_bounds s1.context hacc
  refine ⟨⟨s1, h1, hb⟩, ?_⟩
  unfold fkre_process
  rw [h1]
  by_cases hh : s1.context.html = true
  · refine ⟨fkre_got_subheading s1.context, by simp [hh], ?_⟩
    rw [fkre_got_subheading_eq]
    exact hb
  · exact ⟨s1.context, by simp [hh], hb⟩

/-- The function `fkre_do_word` leaves `html`, `subheadings` and
`maximum_words_per_subheading` as they are. -/
theorem fkre_do_word_frame (context : FKREContext) (word : KString) :
    (fkre_do_word context word).html = context.html
    ∧ (fkre_do_word context word).subheadings = context.subheadings
    ∧ (fkre_do_word context word).maximum_words_per_subheading
        = context.maximum_words_per_subheading := by
  rw [fkre_do_word_eq]
  exact ⟨rfl, rfl, rfl⟩

/-- In plain mode a code point is whitespace or text. -/
theorem classify_spec_plain_cases (c : UTF32) :
    (is_whitespace c = true ∧ classify_spec (c : Int) false = Category.Whitespace)
    ∨ (is_whitespace c = false ∧ classify_spec (c : Int) false = Category.Text) := by
  unfold is_whitespace
  rcases classify_spec_plain (c : Int) with h | h
  · left
    simp [h]
  · right
    simp [h]

/-- In plain mode the loop, started outside a tag with the open run in the word
buffer, applies `fkre_do_word` to the whitespace-terminated runs in order. -/
theorem fkre_loop_plain (text : KString) (s : Scan) (hhtml : s.context.html = false)
    (hst : (s.state = STATE_TEXT ∧ s.word ≠ [])
      ∨ ((s.state = STATE_START ∨ s.state = STATE_WHITE) ∧ s.word = [])) :
    (fkre_loop s text).map (fun s1 => s1.context)
      = some ((whitespace_runs s.word text).foldl fkre_do_word s.context) := by
  induction text generalizing s with
  | nil => simp [fkre_loop, whitespace_runs]
  | cons c rest ih =>
    simp only [fkre_loop, fkre_step_eq_transition, hhtml]
    obtain ⟨ctx, st, tag, word⟩ := s
    simp only at hhtml hst
    rcases classify_spec_plain_cases c with ⟨hw, hcat⟩ | ⟨hw, hcat⟩
    · rcases hst with ⟨h1, h2⟩ | ⟨h1 | h1, h2⟩
      · subst h1
        rw [ih _ (by simp [transition_spec, hcat, (fkre_do_word_frame ctx word).1, hhtml])
          (by simp [transition_spec, hcat])]
        simp [transition_spec, hcat, whitespace_runs, hw, h2]
      · subst h1
        rw [ih _ (by simp [transition_spec, hcat, hhtml]) (by simp [transition_spec, hcat, h2])]
        simp [transition_spec, hcat, whitespace_runs, hw, h2]
      · subst h1
        rw [ih _ (by simp [transition_spec, hcat, hhtml]) (by simp [transition_spec, hcat, h2])]
        simp [transition_spec, hcat, whitespace_runs, hw, h2]
    · rcases hst with ⟨h1, h2⟩ | ⟨h1 | h1, h2⟩
      · subst h1
        rw [ih _ (by simp [transition_spec, hcat, hhtml]) (by simp [transition_spec, hcat])]
        simp [transition_spec, hcat, whitespace_runs, hw]
      · subst h1
        rw [ih _ (by simp [transition_spec, hcat, hhtml]) (by simp [transition_spec, hcat])]
        simp [transition_spec, hcat, whitespace_runs, hw]
      · subst h1
        rw [ih _ (by simp [transition_spec, hcat, hhtml]) (by simp [transition_spec, hcat])]
        simp [transition_spec, hcat, whitespace_runs, hw]

/-- In plain mode `fkre_process` from zeroed statistics applies `fkre_do_word`
to the whitespace-terminated runs of the document, in order. -/
theorem fkre_process_plain (text : KString) :
    fkre_process (FKREContext.zeroed false) text
      = some ((whitespace_runs [] text).foldl fkre_do_word (FKREContext.zeroed false)) := by
  have h := fkre_loop_plain text (fkre_init (FKREContext.zeroed false)) rfl
    (Or.inr ⟨Or.inl rfl, rfl⟩)
  obtain ⟨s1, h1⟩ := fkre_loop_isSome (fkre_init (FKREContext.zeroed false)) text
  rw [h1] at h
  simp only [Option.map_some', Option.some.injEq] at h
  have hhtml : ∀ (ws : List KString) (ctx : FKREContext),
      (ws.foldl fkre_do_word ctx).html = ctx.html := by
    intro ws
    induction ws with
    | nil => intro ctx; rfl
    | cons w rest ih =>
      intro ctx
      rw [List.foldl_cons, ih, (fkre_do_word_frame ctx w).1]
  have hf : s1.context.html = false := by
    rw [h, hhtml]
    rfl
  unfold fkre_process
  rw [h1]
  simp only [hf]
  rw [h]
  rfl

/-- C28: in plain mode, for every document, the statistics that `fkre_process`
produces from zeroed statistics are those obtained by folding `fkre_do_word`,
in order, over the maximal runs of non-whitespace code points that are
immediately followed by a whitespace code point: consecutive whitespace
behaves like a single whitespace, and a final run that no whitespace follows
is not analyzed. -/
theorem fkre_process_eq_whitespace_split (text : KString) :
    fkre_process (FKREContext.zeroed false) text
        = some ((whitespace_runs [] text).foldl fkre_do_word (FKREContext.zeroed false))
    ∧ whitespace_runs [] (utf8 "  ab " ++ [9] ++ utf8 " cd." ++ [10, 10] ++ utf8 "ef")
        = [utf8 "ab", utf8 "cd."] := by
  exact ⟨fkre_process_plain text, by decide⟩

/-- The subheading accounting is kept by `fkre_do_word`. -/
theorem subheading_accounting_do_word (context : FKREContext) (word : KString)
    (h : subheading_accounting context) : subheading_accounting (fkre_do_word context word) := by
  obtain ⟨hs, hc, hm, h1⟩ := h
  unfold subheading_accounting
  rw [fkre_do_word_eq]
  by_cases hl : fkre_extract_letters word = [] <;>
    simp only [hl, if_true, if_false] <;>
    refine ⟨by omega, by omega, by omega, ?_⟩ <;>
    omega

/-- The subheading accounting is kept by `fkre_do_tag`. -/
theorem subheading_accounting_do_tag (context : FKREContext) (tag : KString)
    (h : subheading_accounting context) : subheading_accounting (fkre_do_tag context tag) := by
  obtain ⟨hs, hc, hm, h1⟩ := h
  obtain ⟨k0, k1, _⟩ := close_tally context.words context.words_in_this_subheading
    context.subheadings context.maximum_words_per_subheading hs hc hm h1
  rw [fkre_do_tag_eq]
  split_ifs
  · unfold subheading_accounting
    refine ⟨by simp only; omega, by simp, by simpa using k0, ?_⟩
    simpa using k1
  · exact ⟨hs, hc, hm, h1⟩

/-- The subheading accounting and the mode are kept by a sequence of analyzer calls. -/
theorem subheading_accounting_foldl (ds : List Dispatched) (context : FKREContext)
    (h : subheading_accounting context) :
    subheading_accounting (ds.foldl analyze context)
    ∧ (ds.foldl analyze context).html = context.html := by
  induction ds generalizing context with
  | nil => exact ⟨h, rfl⟩
  | cons d rest ih =>
    rw [List.foldl_cons]
    cases d with
    | word w =>
      have h2 := ih (analyze context (Dispatched.word w))
        (subheading_accounting_do_word context w h)
      refine ⟨h2.1, ?_⟩
      rw [h2.2]
      exact (fkre_do_word_frame context w).1
    | tag t =>
      have h2 := ih (analyze context (Dispatched.tag t))
        (subheading_accounting_do_tag context t h)
      refine ⟨h2.1, ?_⟩
      rw [h2.2]
      simp only [analyze, fkre_do_tag_eq]
      split_ifs <;> rfl

/-- A sequence of `fkre_do_word` calls leaves `subheadings` and
`maximum_words_per_subheading` as they are. -/
theorem foldl_do_word_frame (ws : List KString) (context : FKREContext) :
    (ws.foldl fkre_do_word context).subheadings = context.subheadings
    ∧ (ws.foldl fkre_do_word context).maximum_words_per_subheading
        = context.maximum_words_per_subheading := by
  induction ws generalizing context with
  | nil => exact ⟨rfl, rfl⟩
  | cons w rest ih =>
    rw [List.foldl_cons]
    have h := ih (fkre_do_word context w)
    have hf := fkre_do_word_frame context w
    exact ⟨h.1.trans hf.2.1, h.2.trans hf.2.2⟩

/-- C27: for every document, `fkre_process` in HTML mode from zeroed statistics
returns a context with `words_in_this_subheading = 0` and
`words ≤ (subheadings + 1) * maximum_words_per_subheading`; in plain mode it
returns a context with `subheadings = 0` and `maximum_words_per_subheading = 0`. -/
theorem fkre_process_subheading_accounting (text : KString) :
    (∃ r, fkre_process (FKREContext.zeroed true) text = some r
      ∧ r.words_in_this_subheading = 0
      ∧ r.words ≤ (r.subheadings + 1) * r.maximum_words_per_subheading)
    ∧ (∃ r, fkre_process (FKREContext.zeroed false) text = some r
      ∧ r.subheadings = 0
      ∧ r.maximum_words_per_subheading = 0) := by
  constructor
  · obtain ⟨s1, h1⟩ := fkre_loop_isSome (fkre_init (FKREContext.zeroed true)) text
    have hctx := fkre_loop_context (fkre_init (FKREContext.zeroed true)) text
    rw [h1] at hctx
    simp only [Option.map_some', Option.some.injEq] at hctx
    have h0 : subheading_accounting (fkre_init (FKREContext.zeroed true)).context := by
      unfold subheading_accounting
      simp [fkre_init, FKREContext.zeroed]
    have hacc := subheading_accounting_foldl
      (dispatched (fkre_init (FKREContext.zeroed true)) text) _ h0
    rw [← hctx] at hacc
    obtain ⟨⟨hs, hc, hm, hle⟩, hhtml⟩ := hacc
    have hh : s1.context.html = true := hhtml
    obtain ⟨_, k1, _⟩ := close_tally s1.context.words s1.context.words_in_this_subheading
      s1.context.subheadings s1.context.maximum_words_per_subheading hs hc hm hle
    refine ⟨fkre_got_subheading s1.context, ?_, ?_, ?_⟩
    · unfold fkre_process
      rw [h1]
      simp [hh]
    · rw [fkre_got_subheading_eq]
    · rw [fkre_got_subheading_eq]
      exact k1
  · refine ⟨_, fkre_process_plain text, ?_, ?_⟩
    · exact (foldl_do_word_frame _ _).1
    · exact (foldl_do_word_frame _ _).2

/-- A word without whitespace that is followed by a space closes the open run. -/
theorem whitespace_runs_word (w run rest : KString) (hw : ∀ c ∈ w, is_whitespace c = false)
    (hne : run ++ w ≠ []) :
    whitespace_runs run (w ++ [32] ++ rest) = (run ++ w) :: whitespace_runs [] rest := by
  induction w generalizing run with
  | nil =>
    have h32 : is_whitespace 32 = true := by decide
    have hrun : run ≠ [] := by simpa using hne
    simp [whitespace_runs, h32, hrun]
  | cons c w1 ih =>
    have hc : is_whitespace c = false := hw c (List.mem_cons_self c w1)
    have h1 := ih (run ++ [c]) (fun d hd => hw d (List.mem_cons_of_mem c hd)) (by simp)
    show whitespace_runs run (c :: (w1 ++ [32] ++ rest)) = (run ++ c :: w1) :: whitespace_runs [] rest
    rw [whitespace_runs]
    simp only [hc, Bool.false_eq_true, if_false]
    rw [h1]
    simp

/-- The whitespace-terminated runs of a document of words are its words. -/
theorem whitespace_runs_words_document (ws : List KString)
    (hw : ∀ w ∈ ws, (∀ c ∈ w, is_whitespace c = false) ∧ w ≠ []) :
    whitespace_runs [] (words_document ws) = ws := by
  induction ws with
  | nil => rfl
  | cons w rest ih =>
    have h1 := hw w (List.mem_cons_self w rest)
    rw [words_document, whitespace_runs_word w [] _ h1.1 (by simpa using h1.2),
      ih (fun v hv => hw v (List.mem_cons_of_mem w hv))]
    rfl

/-- Words that end no sentence and have letters add their number to `words`
and to `current_sentence_length` and leave the other sentence fields alone. -/
theorem foldl_do_word_no_end (ws : List KString) (context : FKREContext)
    (hw : ∀ w ∈ ws, fkre_extract_letters w ≠ []
      ∧ w.getLast? ≠ some 46 ∧ w.getLast? ≠ some 63) :
    (ws.foldl fkre_do_word context).sentences = context.sentences
    ∧ (ws.foldl fkre_do_word context).max_sentence_length = context.max_sentence_length
    ∧ (ws.foldl fkre_do_word context).words = context.words + ws.length
    ∧ (ws.foldl fkre_do_word context).current_sentence_length
        = context.current_sentence_length + ws.length := by
  induction ws generalizing context with
  | nil => simp
  | cons w rest ih =>
    obtain ⟨h1, h2, h3⟩ := hw w (List.mem_cons_self w rest)
    have hr := ih (fkre_do_word context w) (fun v hv => hw v (List.mem_cons_of_mem w hv))
    have e1 : (fkre_do_word context w).sentences = context.sentences := by
      rw [fkre_do_word_eq]
      simp [h2, h3]
    have e2 : (fkre_do_word context w).max_sentence_length = context.max_sentence_length := by
      rw [fkre_do_word_eq]
      simp [h2, h3]
    have e3 : (fkre_do_word context w).words = context.words + 1 := by
      rw [fkre_do_word_eq]
      simp [h1]
    have e4 : (fkre_do_word context w).current_sentence_length
        = context.current_sentence_length + 1 := by
      rw [fkre_do_word_eq]
      simp [h1, h2, h3]
    obtain ⟨r1, r2, r3, r4⟩ := hr
    rw [List.foldl_cons]
    refine ⟨r1.trans e1, r2.trans e2, ?_, ?_⟩
    · rw [r3, e3, List.length_cons]
      push_cast
      omega
    · rw [r4, e4, List.length_cons]
      push_cast
      omega

/-- C25 (counterexample): in the plain-mode document "Why? Yes. ", made of two
words with letters, each followed by one space, only the last word ends with
'.'; the scan from zeroed statistics gives `sentences = 2`, not 1. -/
theorem fkre_process_why_yes :
    words_document [utf8 "Why?", utf8 "Yes."] = utf8 "Why? Yes. "
    ∧ (utf8 "Why?").getLast? ≠ some 46 ∧ (utf8 "Yes.").getLast? = some 46
    ∧ fkre_extract_letters (utf8 "Why?") ≠ [] ∧ fkre_extract_letters (utf8 "Yes.") ≠ []
    ∧ (fkre_process (FKREContext.zeroed false) (utf8 "Why? Yes. ")).map
        (fun c => (c.sentences, c.words, c.max_sentence_length, c.current_sentence_length))
      = some (2, 2, 1, 1) := by
  decide

/-- C25 (amended): for every plain-mode document made of words without
whitespace and with non-empty clean forms, each followed by one space, where
the last word ends with '.' and no other word ends with '.' or '?', the scan
from zeroed statistics gives `sentences = 1`, `words = n`,
`max_sentence_length = n - 1` and `current_sentence_length = 1`, where `n` is
the number of words: the word that ends the sentence is counted toward the
following sentence. -/
theorem fkre_process_one_sentence (ws : List KString) (last : KString)
    (hword : ∀ w ∈ ws ++ [last],
      (∀ c ∈ w, is_whitespace c = false) ∧ fkre_extract_letters w ≠ [])
    (hmid : ∀ w ∈ ws, w.getLast? ≠ some 46 ∧ w.getLast? ≠ some 63)
    (hlast : last.getLast? = some 46) :
    ∃ r, fkre_process (FKREContext.zeroed false) (words_document (ws ++ [last])) = some r
      ∧ r.sentences = 1
      ∧ r.words = ((ws ++ [last]).length : Int)
      ∧ r.max_sentence_length = ((ws ++ [last]).length : Int) - 1
      ∧ r.current_sentence_length = 1 := by
  have hne : ∀ w ∈ ws ++ [last], (∀ c ∈ w, is_whitespace c = false) ∧ w ≠ [] := by
    intro w hw
    refine ⟨(hword w hw).1, ?_⟩
    intro h
    apply (hword w hw).2
    rw [h]
    rfl
  have hfold := foldl_do_word_no_end ws (FKREContext.zeroed false)
    (fun w hw => ⟨(hword w (List.mem_append_left _ hw)).2, hmid w hw⟩)
  have hl : fkre_extract_letters last ≠ [] := (hword last (by simp)).2
  obtain ⟨f1, f2, f3, f4⟩ := hfold
  refine ⟨(ws ++ [last]).foldl fkre_do_word (FKREContext.zeroed false), ?_, ?_, ?_, ?_, ?_⟩
  · rw [fkre_process_plain, whitespace_runs_words_document _ hne]
  · rw [List.foldl_append, List.foldl_cons, List.foldl_nil, fkre_do_word_eq]
    simp only [hlast, true_or, if_true, f1]
    rfl
  · rw [List.foldl_append, List.foldl_cons, List.foldl_nil, fkre_do_word_eq]
    simp only [hl, if_false, f3]
    simp [FKREContext.zeroed]
  · rw [List.foldl_append, List.foldl_cons, List.foldl_nil, fkre_do_word_eq]
    simp only [hlast, true_or, if_true, f2, f4]
    simp [FKREContext.zeroed]
  · rw [List.foldl_append, List.foldl_cons, List.foldl_nil, fkre_do_word_eq]
    simp only [hlast, true_or, if_true, hl, if_false]
    rfl

/-- C25 (witness): the amended statement for the document "One two three. ". -/
theorem fkre_process_one_sentence_witness :
    ∃ r, fkre_process (FKREContext.zeroed false)
          (words_document ([utf8 "One", utf8 "two"] ++ [utf8 "three."])) = some r
      ∧ r.sentences = 1
      ∧ r.words = (([utf8 "One", utf8 "two"] ++ [utf8 "three."]).length : Int)
      ∧ r.max_sentence_length = (([utf8 "One", utf8 "two"] ++ [utf8 "three."]).length : Int) - 1
      ∧ r.current_sentence_length = 1 :=
  fkre_process_one_sentence [utf8 "One", utf8 "two"] (utf8 "three.")
    (by decide) (by decide) (by decide)

/-- The loop over a concatenation is the loop over the second part, started
where the loop over the first part ends. -/
theorem fkre_loop_append (a b : KString) (s : Scan) :
    fkre_loop s (a ++ b) = (fkre_loop s a).bind (fun s1 => fkre_loop s1 b) := by
  induction a generalizing s with
  | nil => simp [fkre_loop]
  | cons c rest ih =>
    simp only [List.cons_append, fkre_loop, fkre_step_eq_transition]
    exact ih _

/-- The function `fkre_do_tag` leaves `html` as it is. -/
theorem fkre_do_tag_html (context : FKREContext) (tag : KString) :
    (fkre_do_tag context tag).html = context.html := by
  rw [fkre_do_tag_eq]
  split_ifs <;> rfl

/-- One step of the loop keeps the mode, and keeps the tag buffer empty outside
the state `STATE_TAG`. -/
theorem fkre_step_tag_empty (s s1 : Scan) (c : UTF32) (h : fkre_step s c = some s1)
    (ht : s.state ≠ STATE_TAG → s.tag = []) :
    s1.context.html = s.context.html ∧ (s1.state ≠ STATE_TAG → s1.tag = []) := by
  rw [fkre_step_eq_transition] at h
  have h1 : s1 = transition_spec s (classify_spec (c : Int) s.context.html) c :=
    (Option.some.inj h).symm
  subst h1
  have hw := (fkre_do_word_frame s.context s.word).1
  have hg := fkre_do_tag_html s.context s.tag
  obtain ⟨ctx, st, tag, word⟩ := s
  cases st <;> cases hcat : classify_spec (c : Int) ctx.html <;>
    simp_all [transition_spec]

/-- The loop keeps the mode, and keeps the tag buffer empty outside the state
`STATE_TAG`. -/
theorem fkre_loop_tag_empty (text : KString) (s s1 : Scan) (h : fkre_loop s text = some s1)
    (ht : s.state ≠ STATE_TAG → s.tag = []) :
    s1.context.html = s.context.html ∧ (s1.state ≠ STATE_TAG → s1.tag = []) := by
  induction text generalizing s with
  | nil =>
    simp only [fkre_loop, Option.some.injEq] at h
    subst h
    exact ⟨rfl, ht⟩
  | cons c rest ih =>
    obtain ⟨s2, h2⟩ : ∃ s2, fkre_step s c = some s2 := ⟨_, fkre_step_eq_transition s c⟩
    simp only [fkre_loop, h2] at h
    have k := fkre_step_tag_empty s s2 c h2 ht
    have k2 := ih s2 h k.2
    exact ⟨k2.1.trans k.1, k2.2⟩

/-- In HTML mode only '>' (62) is an end-tag character. -/
theorem classify_spec_html_ne_end (c : UTF32) (hc : c ≠ 62) :
    classify_spec (c : Int) true ≠ Category.EndTag := by
  have hc2 : (c : Int) ≠ 62 := by
    intro h
    apply hc
    exact_mod_cast h
  unfold classify_spec
  split_ifs <;> simp_all

/-- In HTML mode, inside a tag, the loop over characters other than '>' only
appends them to the tag buffer. -/
theorem fkre_loop_tag_body (body : KString) (s : Scan) (hhtml : s.context.html = true)
    (hst : s.state = STATE_TAG) (hb : 62 ∉ body) :
    fkre_loop s body = some { s with tag := s.tag ++ body } := by
  induction body generalizing s with
  | nil => simp [fkre_loop]
  | cons c rest ih =>
    have hc : c ≠ 62 := fun h => hb (h ▸ List.mem_cons_self c rest)
    have hr : 62 ∉ rest := fun h => hb (List.mem_cons_of_mem c h)
    have hne := classify_spec_html_ne_end c hc
    simp only [fkre_loop, fkre_step_eq_transition, hhtml]
    obtain ⟨ctx, st, tag, word⟩ := s
    simp only at hhtml hst
    subst hst
    have hstep : transition_spec { context := ctx, state := STATE_TAG, tag := tag, word := word }
        (classify_spec (c : Int) true) c
        = { context := ctx, state := STATE_TAG, tag := tag ++ [c], word := word } := by
      cases hcat : classify_spec (c : Int) true <;> simp_all [transition_spec]
    rw [hstep, ih _ hhtml rfl hr]
    simp

/-- A tag that does not begin with `h` or `H` changes nothing. -/
theorem fkre_do_tag_not_heading (context : FKREContext) (tag : KString)
    (hh : tag.head? ≠ some 104 ∧ tag.head? ≠ some 72) :
    fkre_do_tag context tag = context := by
  rw [fkre_do_tag_eq]
  cases tag with
  | nil => simp
  | cons a rest =>
    have h1 : a ≠ 104 := fun h => hh.1 (by simp [h])
    have h2 : a ≠ 72 := fun h => hh.2 (by simp [h])
    simp [h1, h2]

/-- In HTML mode, outside a tag, the loop over "<", a tag body without '>'
that does not begin with `h` or `H`, and ">" ends where the step on "<" leads,
back in the state `STATE_START`: the body leaves no trace. -/
theorem fkre_loop_skip_tag (body : KString) (s : Scan) (hhtml : s.context.html = true)
    (hst : s.state ≠ STATE_TAG) (ht : s.tag = []) (hb : 62 ∉ body)
    (hh : body.head? ≠ some 104 ∧ body.head? ≠ some 72) :
    fkre_loop s ([60] ++ body ++ [62])
      = some { transition_spec s Category.StartTag 60 with state := STATE_START } := by
  have h60 : classify_spec ((60 : UTF32) : Int) true = Category.StartTag := by decide
  have h62 : classify_spec ((62 : UTF32) : Int) true = Category.EndTag := by decide
  have hw := (fkre_do_word_frame s.context s.word).1
  obtain ⟨ctx, st, tag, word⟩ := s
  simp only at hhtml hst ht hw
  subst ht
  have key : ∀ t : Scan, t.context.html = true → t.state = STATE_TAG → t.tag = [] →
      fkre_loop t (body ++ [62]) = some { t with state := STATE_START } := by
    intro t k1 k2 k3
    rw [fkre_loop_append, fkre_loop_tag_body body t k1 k2 hb]
    simp only [Option.some_bind, fkre_loop, fkre_step_eq_transition, k1, h62]
    obtain ⟨tc, ts, tt, tw⟩ := t
    simp only at k1 k2 k3
    subst k2
    subst k3
    simp [transition_spec, fkre_do_tag_not_heading tc body hh]
  rw [List.append_assoc, List.singleton_append]
  simp only [fkre_loop, fkre_step_eq_transition, hhtml, h60]
  cases st with
  | STATE_TAG => exact absurd rfl hst
  | STATE_START => exact key _ (by simp [transition_spec, hhtml]) rfl rfl
  | STATE_WHITE => exact key _ (by simp [transition_spec, hhtml]) rfl rfl
  | STATE_TEXT => exact key _ (by simp [transition_spec, hhtml, hw]) rfl rfl

/-- C21: in HTML mode, for all documents `pre` and `post`, where the scan of
`pre` from zeroed statistics does not end in the state `STATE_TAG`, and all tag
bodies `s1`, `s2` without '>' (62) that do not begin with `h` (104) or `H` (72),
the scans of `pre ++ "<" ++ s1 ++ ">" ++ post` and of
`pre ++ "<" ++ s2 ++ ">" ++ post` from zeroed statistics return the same
context. -/
theorem fkre_process_tag_opaque (pre post s1 s2 : KString)
    (hpre : (fkre_loop (fkre_init (FKREContext.zeroed true)) pre).map (fun s => s.state)
      ≠ some STATE_TAG)
    (h1 : 62 ∉ s1) (h2 : 62 ∉ s2)
    (hh1 : s1.head? ≠ some 104 ∧ s1.head? ≠ some 72)
    (hh2 : s2.head? ≠ some 104 ∧ s2.head? ≠ some 72) :
    fkre_process (FKREContext.zeroed true) (pre ++ [60] ++ s1 ++ [62] ++ post)
      = fkre_process (FKREContext.zeroed true) (pre ++ [60] ++ s2 ++ [62] ++ post) := by
  obtain ⟨sp, hsp⟩ := fkre_loop_isSome (fkre_init (FKREContext.zeroed true)) pre
  rw [hsp] at hpre
  have hst : sp.state ≠ STATE_TAG := fun h => hpre (by simp [h])
  have hinv := fkre_loop_tag_empty pre (fkre_init (FKREContext.zeroed true)) sp hsp
    (fun _ => rfl)
  have hhtml : sp.context.html = true := hinv.1
  have htag : sp.tag = [] := hinv.2 hst
  have hloop : ∀ body : KString, 62 ∉ body →
      (body.head? ≠ some 104 ∧ body.head? ≠ some 72) →
      fkre_loop (fkre_init (FKREContext.zeroed true)) (pre ++ [60] ++ body ++ [62] ++ post)
        = fkre_loop { transition_spec sp Category.StartTag 60 with state := STATE_START } post := by
    intro body hb hh
    have e : pre ++ [60] ++ body ++ [62] ++ post = pre ++ (([60] ++ body ++ [62]) ++ post) := by
      simp [List.append_assoc]
    rw [e, fkre_loop_append, hsp, Option.some_bind, fkre_loop_append,
      fkre_loop_skip_tag body sp hhtml hst htag hb hh, Option.some_bind]
  unfold fkre_process
  rw [hloop s1 h1 hh1, hloop s2 h2 hh2]

/-- C21 (witness): after "Some text " the tags "<p class=x. y>" and
"<br /< words here>" are interchangeable before "more text. ". -/
theorem fkre_process_tag_opaque_witness :
    fkre_process (FKREContext.zeroed true)
        (utf8 "Some text " ++ [60] ++ utf8 "p class=x. y" ++ [62] ++ utf8 "more text. ")
      = fkre_process (FKREContext.zeroed true)
        (utf8 "Some text " ++ [60] ++ utf8 "br /< words here" ++ [62] ++ utf8 "more text. ") :=
  fkre_process_tag_opaque (utf8 "Some text ") (utf8 "more text. ") (utf8 "p class=x. y")
    (utf8 "br /< words here") (by decide) (by decide) (by decide) (by decide) (by decide)

/-- The entries read from the static storage at program start are `VOWELS`. -/
theorem startup_entries :
    (List.range Statics.startup.nvowels).map (fun j => Statics.startup.vowels.getD j 0)
      = VOWELS := by
  decide

/-- The outer loop leaves the static storage as it is, and on the storage of
program start it computes `syllable_loop`. -/
theorem syllable_loop_st_eq (word : KString) (st : Statics) (n : Int) (last_vowel : Bool) :
    (syllable_loop_st st n last_vowel word).2 = st
    ∧ (syllable_loop_st Statics.startup n last_vowel word).1
        = syllable_loop n last_vowel word := by
  induction word generalizing n last_vowel with
  | nil => exact ⟨rfl, rfl⟩
  | cons wc rest ih =>
    constructor
    · simp only [syllable_loop_st, vowel_loop_st]
      exact (ih _ _).1
    · simp only [syllable_loop_st, vowel_loop_st, syllable_loop, startup_entries]
      exact (ih _ _).2

/-- The function `fkre_count_syllables` leaves the static storage as it is, and
on the storage of program start it computes the estimate of the embedding
without storage. -/
theorem fkre_count_syllables_st_eq (word : KString) (st : Statics) :
    (fkre_count_syllables_st st word).2 = st
    ∧ (fkre_count_syllables_st Statics.startup word).1 = fkre_count_syllables word := by
  constructor
  · unfold fkre_count_syllables_st
    split_ifs <;> exact (syllable_loop_st_eq word st 0 false).1
  · unfold fkre_count_syllables_st fkre_count_syllables
    split_ifs <;> simp only [(syllable_loop_st_eq word Statics.startup 0 false).2]

/-- On the storage of program start `fkre_do_word` computes the context of the
embedding without storage and leaves the storage as it is. -/
theorem fkre_do_word_st_eq (context : FKREContext) (word : KString) :
    fkre_do_word_st Statics.startup context word
      = (fkre_do_word context word, Statics.startup) := by
  have h1 := (fkre_count_syllables_st_eq (fkre_extract_letters word) Statics.startup).1
  have h2 := (fkre_count_syllables_st_eq (fkre_extract_letters word) Statics.startup).2
  unfold fkre_do_word_st fkre_do_word
  simp only [h1, h2]
  split_ifs <;> rfl

/-- On the storage of program start the loop body computes the step of the
embedding without storage and leaves the storage as it is. -/
theorem fkre_dispatch_st_eq (s : Scan) (type : CharType) (c : UTF32) :
    fkre_dispatch_st Statics.startup s type c
      = (fkre_dispatch s type c).map (fun s1 => (s1, Statics.startup)) := by
  obtain ⟨ctx, st, tag, word⟩ := s
  cases st <;> cases type <;>
    simp [fkre_dispatch_st, fkre_dispatch, fkre_do_word_st_eq, State.toNat, CharType.toNat]

/-- On the storage of program start the loop computes the loop of the embedding
without storage and leaves the storage as it is. -/
theorem fkre_loop_st_eq (text : KString) (s : Scan) :
    fkre_loop_st Statics.startup s text
      = (fkre_loop s text).map (fun s1 => (s1, Statics.startup)) := by
  induction text generalizing s with
  | nil => rfl
  | cons c rest ih =>
    obtain ⟨s2, h2⟩ : ∃ s2, fkre_step s c = some s2 := ⟨_, fkre_step_eq_transition s c⟩
    have h3 : fkre_dispatch s (fkre_classify s.context.html (c : Int)) c = some s2 := h2
    simp only [fkre_loop_st, fkre_loop, fkre_dispatch_st_eq, h2, h3, Option.map_some']
    exact ih s2

/-- On the storage of program start `fkre_process` computes the result of the
embedding without storage and leaves the storage as it is. -/
theorem fkre_process_st_eq (context : FKREContext) (text : KString) :
    fkre_process_st Statics.startup context text
      = (fkre_process context text).map (fun r => (r, Statics.startup)) := by
  obtain ⟨s1, h1⟩ := fkre_loop_isSome (fkre_init context) text
  unfold fkre_process_st fkre_process
  rw [fkre_loop_st_eq, h1]
  by_cases hh : s1.context.html = true
  · simp [hh]
  · simp [hh]

/-- C22: scanning is deterministic and carries no state from one scan to the
next.  For every mode and every text, the scan from zeroed statistics on the
static storage of program start returns statistics `r` and leaves static
storage `st`; a second scan of the same text from zeroed statistics, run on
the storage `st` that the first scan left, returns the same statistics `r`
(every field equal) and the same storage; the storage left is that of program
start, and `r` is the result of `fkre_process` without storage.  So for "Cats
sit. " the first and the second scan both count 2 words. -/
theorem fkre_process_rescan (html : Bool) (text : KString) :
    (∃ r st, fkre_process_st Statics.startup (FKREContext.zeroed html) text = some (r, st)
      ∧ fkre_process_st st (FKREContext.zeroed html) text = some (r, st)
      ∧ st = Statics.startup
      ∧ fkre_process (FKREContext.zeroed html) text = some r)
    ∧ (fkre_process_st Statics.startup (FKREContext.zeroed false) (utf8 "Cats sit. ")).map
        (fun p => (p.1.words, p.2)) = some (2, Statics.startup) := by
  refine ⟨?_, by decide⟩
  obtain ⟨s1, h1⟩ := fkre_loop_isSome (fkre_init (FKREContext.zeroed html)) text
  obtain ⟨r, hr⟩ : ∃ r, fkre_process (FKREContext.zeroed html) text = some r := by
    unfold fkre_process
    rw [h1]
    by_cases hh : s1.context.html = true
    · exact ⟨fkre_got_subheading s1.context, by simp [hh]⟩
    · exact ⟨s1.context, by simp [hh]⟩
  have h := fkre_process_st_eq (FKREContext.zeroed html) text
  rw [hr] at h
  exact ⟨r, Statics.startup, h, h, rfl, hr⟩

end Fkre
